import Mathlib

set_option maxRecDepth 16000
set_option maxHeartbeats 1600000

/- Shallow embedding of the codeChatura-server extraction pipeline
   (src/controllers/CodingChallengeController.js and
   src/controllers/MCQChallengeController.js).

   JS strings are modelled as Lean `List Char` / `String`; the source code and
   every input relevant to the claims are ASCII, where UTF-16 code units and
   Unicode scalar values coincide.  Loops whose JS termination is by index
   advance are written with an explicit fuel argument (structural recursion so
   that the kernel can evaluate them); the wrappers pass fuel at least the
   input length, which the JS control flow never exceeds. -/

/-- Control characters: the class `[\x00-\x1F\x7F]` of the control-character
strip in `repairJsonSyntax` (CodingChallengeController.js line 394). -/
def isCtrlChar (c : Char) : Bool := c.toNat ≤ 0x1F || c.toNat == 0x7F

/-- The JavaScript regex class `\s` (also the set removed by
`String.prototype.trim`): tab through carriage return, space, NBSP, Ogham
space mark, en-quad through hair-space, LS, PS, NNBSP, MMSP, ideographic
space, and the byte-order mark. -/
def isJsWs (c : Char) : Bool :=
  let n := c.toNat
  (0x09 ≤ n && n ≤ 0x0D) || n == 0x20 || n == 0xA0 || n == 0x1680 ||
  (0x2000 ≤ n && n ≤ 0x200A) || n == 0x2028 || n == 0x2029 ||
  n == 0x202F || n == 0x205F || n == 0x3000 || n == 0xFEFF

/-- The character loop of `repairJsonSyntax` (lines 364-385): a single
left-to-right pass with one `inString` flag.  `prev` is the previous
character of the ORIGINAL string (`jsonString[i-1]`), `none` at `i = 0`.
Branches in source order: an unescaped quote toggles `inString`; the second
branch would escape a quote met inside a string; a raw newline or carriage
return inside a string becomes the two characters `\n`; anything else is
copied. -/
def scanQuotes : Option Char → Bool → List Char → List Char
  | _, _, [] => []
  | prev, inString, c :: rest =>
    if c = '"' ∧ (prev = none ∨ prev ≠ some '\\') then
      c :: scanQuotes (some c) (!inString) rest
    else if inString ∧ c = '"' ∧ prev ≠ some '\\' then
      '\\' :: '"' :: scanQuotes (some c) inString rest
    else if inString ∧ (c = '\n' ∨ c = '\r') then
      '\\' :: 'n' :: scanQuotes (some c) inString rest
    else
      c :: scanQuotes (some c) inString rest

/-- The same loop with the unreachable quote-escaping branch removed; used to
state that the branch is dead (claim C6). -/
def scanQuotesNoEscape : Option Char → Bool → List Char → List Char
  | _, _, [] => []
  | prev, inString, c :: rest =>
    if c = '"' ∧ (prev = none ∨ prev ≠ some '\\') then
      c :: scanQuotesNoEscape (some c) (!inString) rest
    else if inString ∧ (c = '\n' ∨ c = '\r') then
      '\\' :: 'n' :: scanQuotesNoEscape (some c) inString rest
    else
      c :: scanQuotesNoEscape (some c) inString rest

/-- One global-replace pass `result.replace(/l(\s*)r/g, "l,\nr")` for a
closer `l` and an opener `r` — the shape of each of the four missing-comma
rewrites (lines 388-391).  The engine finds the leftmost match (literal `l`,
a whitespace run, literal `r`), emits `l`, `,`, a newline and `r` in place of
the whole match (the matched whitespace is dropped), and resumes after the
consumed `r`; at a non-match the character is copied and the search resumes
at the next position.  Fuel-structural: each step consumes at least one input
character, so any fuel at least the input length gives the JS behaviour. -/
def commaPassF (l r : Char) : Nat → List Char → List Char
  | 0, cs => cs
  | _ + 1, [] => []
  | fuel + 1, c :: rest =>
    if c = l then
      match rest.dropWhile isJsWs with
      | r' :: tail =>
        if r' = r then l :: ',' :: '\n' :: r :: commaPassF l r fuel tail
        else c :: commaPassF l r fuel rest
      | [] => c :: commaPassF l r fuel rest
    else c :: commaPassF l r fuel rest

/-- Entry point of one comma pass, with fuel the input length (sufficient:
every recursive call strictly consumes input). -/
def commaPass (l r : Char) (cs : List Char) : List Char :=
  commaPassF l r cs.length cs

/-- The control-character strip `result.replace(/[\x00-\x1F\x7F]/g, "")`
(line 394). -/
def stripCtrl (cs : List Char) : List Char := cs.filter (fun c => !isCtrlChar c)

/-- One balancing step of `repairJsonSyntax` (lines 397-401 for braces,
403-407 for brackets): count the opener `o` and the closer `c`; when openers
outnumber closers, append the difference in closers at the end. -/
def appendMissingClosers (cs : List Char) (o c : Char) : List Char :=
  if cs.count c < cs.count o then cs ++ List.replicate (cs.count o - cs.count c) c
  else cs

/-- The closing-delimiter balancing (lines 397-407): braces first, then
brackets counted on the brace-appended text, as in the source. -/
def balanceClosers (cs : List Char) : List Char :=
  appendMissingClosers (appendMissingClosers cs '{' '}') '[' ']'

/-- `repairJsonSyntax` (lines 362-410) on character lists: the quote/newline
scan, the four missing-comma rewrites in source order (`}{`, `][`, `}[`,
`]{`), the control-character strip, then delimiter balancing. -/
def repairJsonSyntaxList (cs : List Char) : List Char :=
  balanceClosers (stripCtrl
    (commaPass ']' '{' (commaPass '}' '[' (commaPass ']' '[' (commaPass '}' '{'
      (scanQuotes none false cs))))))

/-- `repairJsonSyntax` on strings. -/
def repairJsonSyntax (s : String) : String := ⟨repairJsonSyntaxList s.data⟩

/-- First non-whitespace character of a text, the way a `/l(\s*)r/` match
looks past `l`: `none` when only whitespace remains. -/
def firstNonWs (cs : List Char) : Option Char := (cs.dropWhile isJsWs).head?

/-- Whether the text still contains a match of `/l(\s*)r/`: some `l` whose
following whitespace run is ended by `r`. -/
def hasAdj (l r : Char) : List Char → Bool
  | [] => false
  | c :: rest => (c == l && firstNonWs rest == some r) || hasAdj l r rest

/- ------------------------------------------------------------------ -/
/- Facts about the scan (claim C6).                                    -/
/- ------------------------------------------------------------------ -/

theorem scanQuotes_eq_noEscape (cs : List Char) :
    ∀ prev inString, scanQuotes prev inString cs = scanQuotesNoEscape prev inString cs := by
  induction cs with
  | nil => intro prev inString; rfl
  | cons c rest ih =>
    intro prev inString
    by_cases h1 : c = '"' ∧ (prev = none ∨ prev ≠ some '\\')
    · simp only [scanQuotes, scanQuotesNoEscape, if_pos h1, ih]
    · have h2 : ¬(inString ∧ c = '"' ∧ prev ≠ some '\\') := by
        rintro ⟨-, hc, hp⟩
        exact h1 ⟨hc, Or.inr hp⟩
      by_cases h3 : inString ∧ (c = '\n' ∨ c = '\r')
      · simp only [scanQuotes, scanQuotesNoEscape, if_neg h1, if_neg h2, if_pos h3, ih]
      · simp only [scanQuotes, scanQuotesNoEscape, if_neg h1, if_neg h2, if_neg h3, ih]

theorem scanQuotes_id_of_no_newline (cs : List Char)
    (h : ∀ c ∈ cs, c ≠ '\n' ∧ c ≠ '\r') :
    ∀ prev inString, scanQuotes prev inString cs = cs := by
  induction cs with
  | nil => intro prev inString; rfl
  | cons c rest ih =>
    intro prev inString
    rw [scanQuotes_eq_noEscape]
    have hc := h c (List.mem_cons_self c rest)
    have hrest : ∀ x ∈ rest, x ≠ '\n' ∧ x ≠ '\r' := fun x hx => h x (List.mem_cons_of_mem c hx)
    have ihr : ∀ prev inString, scanQuotes prev inString rest = rest := ih hrest
    by_cases h1 : c = '"' ∧ (prev = none ∨ prev ≠ some '\\')
    · simp only [scanQuotesNoEscape, if_pos h1, ← scanQuotes_eq_noEscape, ihr]
    · have h3 : ¬(inString ∧ (c = '\n' ∨ c = '\r')) := by
        rintro ⟨-, hc' | hc'⟩
        · exact hc.1 hc'
        · exact hc.2 hc'
      simp only [scanQuotesNoEscape, if_neg h1, if_neg h3, ← scanQuotes_eq_noEscape, ihr]

/-- Claim C6 (counterexample): on `{"a":"b"c"}` the quote between `b` and `c`
sits inside a string literal and is raw (previous character `b`, not a
backslash), yet the scan emits the input unchanged — no `\"` is produced; in
particular the output differs from the literal-escaped rendering
`{"a":"b\"c"}` that the claim requires.  Every unescaped quote is consumed by
the boundary-toggle branch, so the escaping branch never fires. -/
theorem C6_counterexample :
    scanQuotes none false "\x7b\"a\":\"b\"c\"\x7d".data = "\x7b\"a\":\"b\"c\"\x7d".data ∧
    scanQuotes none false "\x7b\"a\":\"b\"c\"\x7d".data ≠ "\x7b\"a\":\"b\\\"c\"\x7d".data := by
  constructor
  · decide
  · decide

/-- Claim C6 (amended): the literal-escaping branch of the scan is dead code —
the scan behaves exactly like the loop without it.  Every unescaped quote is
classified as a string boundary and toggles the in-string flag (so
closing-boundary detection and literal-escaping indeed never both fire on one
character: the latter never fires at all), and a raw newline or carriage
return inside a string literal is rewritten to the escaped sequence `\n`. -/
theorem C6_scan_never_escapes (prev : Option Char) (inString : Bool) (cs : List Char) :
    scanQuotes prev inString cs = scanQuotesNoEscape prev inString cs :=
  scanQuotes_eq_noEscape cs prev inString

/- ------------------------------------------------------------------ -/
/- Machinery for idempotence of the syntax repairer (claim C4).        -/
/- ------------------------------------------------------------------ -/

theorem firstNonWs_cons_of_ws {c : Char} (h : isJsWs c = true) (cs : List Char) :
    firstNonWs (c :: cs) = firstNonWs cs := by
  simp [firstNonWs, List.dropWhile_cons, h]

theorem firstNonWs_cons_of_not_ws {c : Char} (h : isJsWs c = false) (cs : List Char) :
    firstNonWs (c :: cs) = some c := by
  simp [firstNonWs, List.dropWhile_cons, h]

theorem firstNonWs_eq_iff_dropWhile (cs : List Char) (x : Char) :
    firstNonWs cs = some x ↔ ∃ tail, cs.dropWhile isJsWs = x :: tail := by
  unfold firstNonWs
  cases cs.dropWhile isJsWs with
  | nil => simp
  | cons a t => simp

/-- A pass is the identity when no match is present. -/
theorem commaPassF_id_of_not_hasAdj (l r : Char) (fuel : Nat) :
    ∀ cs : List Char, hasAdj l r cs = false → commaPassF l r fuel cs = cs := by
  induction fuel with
  | zero => intro cs _; rfl
  | succ fuel ih =>
    intro cs hna
    cases cs with
    | nil => rfl
    | cons c rest =>
      have hna' : ¬(c == l && firstNonWs rest == some r) = true ∧ hasAdj l r rest = false := by
        simp only [hasAdj, Bool.or_eq_false_iff] at hna
        exact ⟨by simp [hna.1], hna.2⟩
      by_cases hc : c = l
      · subst hc
        have hfw : firstNonWs rest ≠ some r := by
          intro hfw
          exact hna'.1 (by simp [hfw])
        rw [commaPassF, if_pos rfl]
        cases hdrop : rest.dropWhile isJsWs with
        | nil => rw [ih rest hna'.2]
        | cons r' tail =>
          have hr' : r' ≠ r := by
            intro h
            apply hfw
            rw [firstNonWs_eq_iff_dropWhile]
            exact ⟨tail, by rw [hdrop, h]⟩
          dsimp only
          rw [if_neg hr', ih rest hna'.2]
      · rw [commaPassF, if_neg hc, ih rest hna'.2]

/-- A pass does not change the first non-whitespace character (the pattern
head `l` is not whitespace for the four patterns in the source). -/
theorem firstNonWs_commaPassF (l r : Char) (hl : isJsWs l = false) (fuel : Nat) :
    ∀ cs : List Char, firstNonWs (commaPassF l r fuel cs) = firstNonWs cs := by
  induction fuel with
  | zero => intro cs; rfl
  | succ fuel ih =>
    intro cs
    cases cs with
    | nil => rfl
    | cons c rest =>
      by_cases hc : c = l
      · subst hc
        rw [commaPassF, if_pos rfl]
        cases hdrop : rest.dropWhile isJsWs with
        | nil => rw [firstNonWs_cons_of_not_ws hl, firstNonWs_cons_of_not_ws hl]
        | cons r' tail =>
          dsimp only
          by_cases hr' : r' = r
          · subst hr'
            rw [if_pos rfl, firstNonWs_cons_of_not_ws hl, firstNonWs_cons_of_not_ws hl]
          · rw [if_neg hr', firstNonWs_cons_of_not_ws hl, firstNonWs_cons_of_not_ws hl]
      · by_cases hw : isJsWs c = true
        · rw [commaPassF, if_neg hc, firstNonWs_cons_of_ws hw, firstNonWs_cons_of_ws hw, ih]
        · rw [commaPassF, if_neg hc,
            firstNonWs_cons_of_not_ws (by simpa using hw),
            firstNonWs_cons_of_not_ws (by simpa using hw)]

theorem hasAdj_append_right (l r : Char) (a b : List Char)
    (h : hasAdj l r (a ++ b) = false) : hasAdj l r b = false := by
  induction a with
  | nil => exact h
  | cons c rest ih =>
    simp only [List.cons_append, hasAdj, Bool.or_eq_false_iff] at h
    exact ih h.2

/-- After its own pass, a pattern has no match left in the text (stated with
the character side conditions that hold for the four source patterns). -/
theorem hasAdj_commaPassF_self (l r : Char)
    (hlw : isJsWs l = false) (hrl : (r == l) = false)
    (hcr : ((',' : Char) == r) = false) (hcl : ((',' : Char) == l) = false)
    (hnl : (('\n' : Char) == l) = false) :
    ∀ (fuel : Nat) (cs : List Char), cs.length ≤ fuel →
      hasAdj l r (commaPassF l r fuel cs) = false := by
  have hcw : isJsWs ',' = false := by decide
  intro fuel
  induction fuel with
  | zero =>
    intro cs hcs
    rw [Nat.le_zero, List.length_eq_zero] at hcs
    subst hcs
    rfl
  | succ fuel ih =>
    intro cs hcs
    cases cs with
    | nil => rfl
    | cons c rest =>
      have hrest : rest.length ≤ fuel := by simp at hcs; omega
      by_cases hc : c = l
      · subst hc
        rw [commaPassF, if_pos rfl]
        cases hdrop : rest.dropWhile isJsWs with
        | nil =>
          have hfw : firstNonWs rest = none := by simp [firstNonWs, hdrop]
          simp only [hasAdj, firstNonWs_cons_of_not_ws hlw,
            firstNonWs_commaPassF c r hlw, hfw, Bool.or_eq_false_iff]
          refine ⟨by simp, ih rest hrest⟩
        | cons r' tail =>
          dsimp only
          by_cases hr' : r' = r
          · subst hr'
            have htail : tail.length ≤ fuel := by
              have := (List.dropWhile_sublist (l := rest) isJsWs).length_le
              rw [hdrop] at this
              simp at this
              omega
            rw [if_pos rfl]
            have h1 : firstNonWs (',' :: '\n' :: r' :: commaPassF c r' fuel tail) = some ',' :=
              firstNonWs_cons_of_not_ws hcw _
            simp [hasAdj, h1, hcr, hcl, hnl, hrl, ih tail htail]
          · rw [if_neg hr']
            have hfwr : firstNonWs rest = some r' := by simp [firstNonWs, hdrop]
            have hfw : (firstNonWs (commaPassF c r fuel rest) == some r) = false := by
              rw [firstNonWs_commaPassF c r hlw, hfwr]
              simp [hr']
            simp only [hasAdj, Bool.or_eq_false_iff]
            refine ⟨by simp [hfw], ih rest hrest⟩
      · rw [commaPassF, if_neg hc]
        simp only [hasAdj, Bool.or_eq_false_iff]
        refine ⟨by simp [hc], ih rest hrest⟩

/-- A pass for one pattern cannot create a match of another pattern: it only
inserts a comma (a blocker) and a newline right after that comma. -/
theorem hasAdj_commaPassF_other (l r l' r' : Char)
    (hl'w : isJsWs l' = false)
    (hcr : (',' : Char) ≠ r) (hcl : (',' : Char) ≠ l)
    (hnl : ('\n' : Char) ≠ l) (hr'l : r' ≠ l) :
    ∀ (fuel : Nat) (cs : List Char), hasAdj l r cs = false →
      hasAdj l r (commaPassF l' r' fuel cs) = false := by
  have hcw : isJsWs ',' = false := by decide
  intro fuel
  induction fuel with
  | zero => intro cs h; exact h
  | succ fuel ih =>
    intro cs h
    cases cs with
    | nil => rfl
    | cons c rest =>
      have hdec : ((c == l && firstNonWs rest == some r) = false) ∧ hasAdj l r rest = false := by
        simpa [hasAdj, Bool.or_eq_false_iff] using h
      have hhead : ∀ X : List Char, firstNonWs X = firstNonWs rest →
          (c == l && firstNonWs X == some r) = false := by
        intro X hX
        rw [hX]
        exact hdec.1
      by_cases hc : c = l'
      · rw [commaPassF, if_pos hc]
        cases hdrop : rest.dropWhile isJsWs with
        | nil =>
          simp only [hasAdj, Bool.or_eq_false_iff]
          exact ⟨hhead _ (firstNonWs_commaPassF l' r' hl'w fuel rest), ih rest hdec.2⟩
        | cons r0 tail =>
          dsimp only
          by_cases hr0 : r0 = r'
          · rw [if_pos hr0]
            have htail : hasAdj l r tail = false := by
              have hsplit : rest = rest.takeWhile isJsWs ++ r0 :: tail := by
                conv_lhs => rw [← List.takeWhile_append_dropWhile (p := isJsWs) (l := rest)]
                rw [hdrop]
              have h1 : hasAdj l r (r0 :: tail) = false := by
                apply hasAdj_append_right l r (rest.takeWhile isJsWs)
                rw [← hsplit]
                exact hdec.2
              have h2 : ((r0 == l && firstNonWs tail == some r) = false) ∧
                  hasAdj l r tail = false := by
                simpa [hasAdj, Bool.or_eq_false_iff] using h1
              exact h2.2
            have h1 : firstNonWs (',' :: '\n' :: r' :: commaPassF l' r' fuel tail) = some ',' :=
              firstNonWs_cons_of_not_ws hcw _
            simp [hasAdj, h1, hcr, hcl, hnl, hr'l, ih tail htail,
              firstNonWs_cons_of_not_ws]
          · rw [if_neg hr0]
            simp only [hasAdj, Bool.or_eq_false_iff]
            exact ⟨hhead _ (firstNonWs_commaPassF l' r' hl'w fuel rest), ih rest hdec.2⟩
      · rw [commaPassF, if_neg hc]
        simp only [hasAdj, Bool.or_eq_false_iff]
        exact ⟨hhead _ (firstNonWs_commaPassF l' r' hl'w fuel rest), ih rest hdec.2⟩

/-- Characters of a pass output come from the input or are the inserted comma
or newline. -/
theorem mem_commaPassF (l r : Char) :
    ∀ (fuel : Nat) (cs : List Char) (c : Char), c ∈ commaPassF l r fuel cs →
      c ∈ cs ∨ c = ',' ∨ c = '\n' := by
  intro fuel
  induction fuel with
  | zero => intro cs c h; exact Or.inl h
  | succ fuel ih =>
    intro cs c h
    cases cs with
    | nil => simp [commaPassF] at h
    | cons c0 rest =>
      by_cases hc : c0 = l
      · rw [commaPassF, if_pos hc] at h
        cases hdrop : rest.dropWhile isJsWs with
        | nil =>
          rw [hdrop] at h
          dsimp only at h
          rcases List.mem_cons.mp h with h | h
          · exact Or.inl (List.mem_cons.mpr (Or.inl h))
          · rcases ih rest c h with h' | h'
            · exact Or.inl (List.mem_cons.mpr (Or.inr h'))
            · exact Or.inr h'
        | cons r0 tail =>
          rw [hdrop] at h
          dsimp only at h
          by_cases hr0 : r0 = r
          · rw [if_pos hr0] at h
            have htails : tail ⊆ rest := by
              have h1 : r0 :: tail ⊆ rest := by
                rw [← hdrop]
                exact (List.dropWhile_sublist isJsWs).subset
              exact fun x hx => h1 (List.mem_cons.mpr (Or.inr hx))
            have hrmem : r ∈ rest := by
              have h1 : r0 :: tail ⊆ rest := by
                rw [← hdrop]
                exact (List.dropWhile_sublist isJsWs).subset
              rw [← hr0]
              exact h1 (List.mem_cons.mpr (Or.inl rfl))
            rcases List.mem_cons.mp h with h | h
            · subst h; rw [hc]; exact Or.inl (List.mem_cons.mpr (Or.inl rfl))
            rcases List.mem_cons.mp h with h | h
            · exact Or.inr (Or.inl h)
            rcases List.mem_cons.mp h with h | h
            · exact Or.inr (Or.inr h)
            rcases List.mem_cons.mp h with h | h
            · subst h; exact Or.inl (List.mem_cons.mpr (Or.inr hrmem))
            · rcases ih tail c h with h' | h'
              · exact Or.inl (List.mem_cons.mpr (Or.inr (htails h')))
              · exact Or.inr h'
          · rw [if_neg hr0] at h
            rcases List.mem_cons.mp h with h | h
            · exact Or.inl (List.mem_cons.mpr (Or.inl h))
            · rcases ih rest c h with h' | h'
              · exact Or.inl (List.mem_cons.mpr (Or.inr h'))
              · exact Or.inr h'
      · rw [commaPassF, if_neg hc] at h
        rcases List.mem_cons.mp h with h | h
        · exact Or.inl (List.mem_cons.mpr (Or.inl h))
        · rcases ih rest c h with h' | h'
          · exact Or.inl (List.mem_cons.mpr (Or.inr h'))
          · exact Or.inr h'

/-- Removing whitespace-or-control characters (in the post-pass text only the
inserted newline is a control character) keeps the first non-whitespace
character. -/
theorem firstNonWs_stripCtrl (cs : List Char)
    (h : ∀ c ∈ cs, isCtrlChar c = true → c = '\n') :
    firstNonWs (stripCtrl cs) = firstNonWs cs := by
  induction cs with
  | nil => rfl
  | cons c rest ih =>
    have hrest := fun x hx => h x (List.mem_cons_of_mem c hx)
    by_cases hctrl : isCtrlChar c = true
    · have hcn : c = '\n' := h c (List.mem_cons_self c rest) hctrl
      have hws : isJsWs c = true := by rw [hcn]; decide
      rw [show stripCtrl (c :: rest) = stripCtrl rest by
          simp [stripCtrl, List.filter_cons, hctrl],
        firstNonWs_cons_of_ws hws, ih hrest]
    · rw [show stripCtrl (c :: rest) = c :: stripCtrl rest by
          simp [stripCtrl, List.filter_cons, hctrl]]
      by_cases hws : isJsWs c = true
      · rw [firstNonWs_cons_of_ws hws, firstNonWs_cons_of_ws hws, ih hrest]
      · rw [firstNonWs_cons_of_not_ws (by simpa using hws),
          firstNonWs_cons_of_not_ws (by simpa using hws)]

/-- The control strip cannot create a pattern match when the only control
characters present are newlines (which are whitespace anyway). -/
theorem hasAdj_stripCtrl (l r : Char) (cs : List Char)
    (hnl : ∀ c ∈ cs, isCtrlChar c = true → c = '\n')
    (h : hasAdj l r cs = false) : hasAdj l r (stripCtrl cs) = false := by
  induction cs with
  | nil => exact h
  | cons c rest ih =>
    have hrest := fun x hx => hnl x (List.mem_cons_of_mem c hx)
    have hdec : ((c == l && firstNonWs rest == some r) = false) ∧ hasAdj l r rest = false := by
      simpa [hasAdj, Bool.or_eq_false_iff] using h
    by_cases hctrl : isCtrlChar c = true
    · rw [show stripCtrl (c :: rest) = stripCtrl rest by
          simp [stripCtrl, List.filter_cons, hctrl]]
      exact ih hrest hdec.2
    · rw [show stripCtrl (c :: rest) = c :: stripCtrl rest by
          simp [stripCtrl, List.filter_cons, hctrl]]
      simp only [hasAdj, Bool.or_eq_false_iff]
      constructor
      · rw [firstNonWs_stripCtrl rest hrest]
        exact hdec.1
      · exact ih hrest hdec.2

/-- First non-whitespace character of an appended text. -/
theorem firstNonWs_append (a b : List Char) :
    firstNonWs (a ++ b) =
      match firstNonWs a with
      | some x => some x
      | none => firstNonWs b := by
  unfold firstNonWs
  rw [List.dropWhile_append]
  cases hdrop : a.dropWhile isJsWs with
  | nil => simp
  | cons x t => simp

/-- A character reported by `firstNonWs` belongs to the text. -/
theorem firstNonWs_mem {cs : List Char} {x : Char} (h : firstNonWs cs = some x) : x ∈ cs := by
  rw [firstNonWs_eq_iff_dropWhile] at h
  obtain ⟨tail, htail⟩ := h
  have hsub : x :: tail ⊆ cs := by
    rw [← htail]; exact (List.dropWhile_sublist isJsWs).subset
  exact hsub (List.mem_cons_self x tail)

/-- Appending pure closing delimiters (never an opener `r`) cannot create a
pattern match. -/
theorem hasAdj_append_closers (l r : Char)
    (cs suf : List Char)
    (hsuf : ∀ c ∈ suf, c = '}' ∨ c = ']')
    (hrne : r ≠ '}' ∧ r ≠ ']')
    (h : hasAdj l r cs = false) : hasAdj l r (cs ++ suf) = false := by
  have hnotr : ∀ (t : List Char), (∀ c ∈ t, c = '}' ∨ c = ']') →
      (firstNonWs t == some r) = false := by
    intro t hmem
    cases hfw : firstNonWs t with
    | none => simp
    | some y =>
      have hy : y ≠ r := by
        intro hh
        subst hh
        rcases hmem y (firstNonWs_mem hfw) with h' | h'
        · exact hrne.1 h'
        · exact hrne.2 h'
      simp [hy]
  have hsufAdj : ∀ t : List Char, (∀ c ∈ t, c = '}' ∨ c = ']') → hasAdj l r t = false := by
    intro t
    induction t with
    | nil => intro _; rfl
    | cons c rest ih =>
      intro hmem
      have hrest := fun x hx => hmem x (List.mem_cons_of_mem c hx)
      simp only [hasAdj, Bool.or_eq_false_iff]
      exact ⟨by rw [hnotr rest hrest]; simp, ih hrest⟩
  induction cs with
  | nil => exact hsufAdj suf hsuf
  | cons c rest ih =>
    have hdec : ((c == l && firstNonWs rest == some r) = false) ∧ hasAdj l r rest = false := by
      simpa [hasAdj, Bool.or_eq_false_iff] using h
    rw [List.cons_append]
    simp only [hasAdj, Bool.or_eq_false_iff]
    refine ⟨?_, ih hdec.2⟩
    cases hcl : (c == l) with
    | false => simp [hcl]
    | true =>
      have hfw : (firstNonWs rest == some r) = false := by
        have h2 := hdec.1
        rw [hcl] at h2
        simpa using h2
      rw [Bool.true_and, firstNonWs_append]
      cases hfwr : firstNonWs rest with
      | some x =>
        rw [hfwr] at hfw
        simpa using hfw
      | none =>
        exact hnotr suf hsuf

/-- A comma pass preserves the number of occurrences of any character that is
not the inserted comma or newline and is not whitespace (in particular of the
four delimiters). -/
theorem count_commaPassF (l r a : Char) (hca : a ≠ ',') (hna : a ≠ '\n')
    (hwa : isJsWs a = false) :
    ∀ (fuel : Nat) (cs : List Char), (commaPassF l r fuel cs).count a = cs.count a := by
  intro fuel
  induction fuel with
  | zero => intro cs; rfl
  | succ fuel ih =>
    intro cs
    cases cs with
    | nil => rfl
    | cons c rest =>
      by_cases hc : c = l
      · rw [commaPassF, if_pos hc]
        cases hdrop : rest.dropWhile isJsWs with
        | nil =>
          dsimp only
          rw [List.count_cons, List.count_cons, ih]
        | cons r0 tail =>
          dsimp only
          by_cases hr0 : r0 = r
          · rw [if_pos hr0]
            have hsplit : rest = rest.takeWhile isJsWs ++ r0 :: tail := by
              conv_lhs => rw [← List.takeWhile_append_dropWhile (p := isJsWs) (l := rest)]
              rw [hdrop]
            have htw : (rest.takeWhile isJsWs).count a = 0 := by
              rw [List.count_eq_zero]
              intro hmem
              have hws := List.mem_takeWhile_imp hmem
              rw [hwa] at hws
              exact absurd hws (by decide)
            conv_rhs => rw [hsplit]
            subst hc
            subst hr0
            have hcaf : ((',' : Char) == a) = false := by simp [Ne.symm hca]
            have hnaf : (('\n' : Char) == a) = false := by simp [Ne.symm hna]
            simp only [List.count_cons, List.count_append, htw, ih tail, hcaf, hnaf,
              if_false, Bool.false_eq_true]
            omega
          · rw [if_neg hr0]
            rw [List.count_cons, List.count_cons, ih]
      · rw [commaPassF, if_neg hc]
        rw [List.count_cons, List.count_cons, ih]

/-- The control strip preserves counts of non-control characters. -/
theorem count_stripCtrl (a : Char) (ha : isCtrlChar a = false) (cs : List Char) :
    (stripCtrl cs).count a = cs.count a := by
  induction cs with
  | nil => rfl
  | cons c rest ih =>
    by_cases hctrl : isCtrlChar c = true
    · have hac : (c == a) = false := by
        simp only [beq_eq_false_iff_ne]
        intro h
        rw [h, ha] at hctrl
        exact absurd hctrl (by decide)
      rw [show stripCtrl (c :: rest) = stripCtrl rest by
          simp [stripCtrl, List.filter_cons, hctrl],
        List.count_cons, hac, ih]
      simp
    · rw [show stripCtrl (c :: rest) = c :: stripCtrl rest by
          simp [stripCtrl, List.filter_cons, hctrl],
        List.count_cons, List.count_cons, ih]

/-- Characters of one balancing step: a source character or the closer. -/
theorem mem_appendMissingClosers (cs : List Char) (o c x : Char)
    (h : x ∈ appendMissingClosers cs o c) : x ∈ cs ∨ x = c := by
  unfold appendMissingClosers at h
  split at h
  · rw [List.mem_append] at h
    rcases h with h | h
    · exact Or.inl h
    · exact Or.inr (List.eq_of_mem_replicate h)
  · exact Or.inl h

/-- After one balancing step the closer is at least as frequent as the
opener. -/
theorem counts_appendMissingClosers (cs : List Char) (o c : Char) (hoc : o ≠ c) :
    (appendMissingClosers cs o c).count o ≤ (appendMissingClosers cs o c).count c := by
  unfold appendMissingClosers
  split
  · rw [List.count_append, List.count_append]
    simp only [List.count_replicate, beq_iff_eq, if_neg (Ne.symm hoc), eq_self_iff_true,
      if_true]
    omega
  · omega

/-- One balancing step does not change the count of any character other than
its closer. -/
theorem count_appendMissingClosers_other (cs : List Char) (o c a : Char) (hac : a ≠ c) :
    (appendMissingClosers cs o c).count a = cs.count a := by
  unfold appendMissingClosers
  split
  · rw [List.count_append, List.count_replicate]
    simp only [beq_iff_eq, if_neg (Ne.symm hac), Nat.add_zero]
  · rfl

/-- When closers already dominate, a balancing step is the identity. -/
theorem appendMissingClosers_eq_self (cs : List Char) (o c : Char)
    (h : cs.count o ≤ cs.count c) : appendMissingClosers cs o c = cs := by
  unfold appendMissingClosers
  rw [if_neg (by omega)]

/-- The balanced text always has at least as many closing braces as opening
braces and closing brackets as opening brackets. -/
theorem balanceClosers_counts (cs : List Char) :
    (balanceClosers cs).count '{' ≤ (balanceClosers cs).count '}' ∧
    (balanceClosers cs).count '[' ≤ (balanceClosers cs).count ']' := by
  unfold balanceClosers
  constructor
  · rw [count_appendMissingClosers_other (appendMissingClosers cs '{' '}') '[' ']' '{'
        (by decide),
      count_appendMissingClosers_other (appendMissingClosers cs '{' '}') '[' ']' '}'
        (by decide)]
    exact counts_appendMissingClosers cs '{' '}' (by decide)
  · exact counts_appendMissingClosers _ '[' ']' (by decide)

/-- When the text already has enough closers of both kinds, balancing is the
identity. -/
theorem balanceClosers_eq_self (cs : List Char)
    (h1 : cs.count '{' ≤ cs.count '}') (h2 : cs.count '[' ≤ cs.count ']') :
    balanceClosers cs = cs := by
  unfold balanceClosers
  rw [appendMissingClosers_eq_self cs '{' '}' h1, appendMissingClosers_eq_self cs '[' ']' h2]

/-- Characters of the balanced text come from the input or are closers. -/
theorem mem_balanceClosers (cs : List Char) (c : Char) (h : c ∈ balanceClosers cs) :
    c ∈ cs ∨ c = '}' ∨ c = ']' := by
  unfold balanceClosers at h
  rcases mem_appendMissingClosers _ _ _ _ h with h1 | h1
  · rcases mem_appendMissingClosers _ _ _ _ h1 with h2 | h2
    · exact Or.inl h2
    · exact Or.inr (Or.inl h2)
  · exact Or.inr (Or.inr h1)

/-- A balancing step cannot create a pattern match (it appends closers). -/
theorem hasAdj_appendMissingClosers (l r : Char) (cs : List Char) (o c : Char)
    (hc : c = '}' ∨ c = ']') (hrne : r ≠ '}' ∧ r ≠ ']')
    (h : hasAdj l r cs = false) : hasAdj l r (appendMissingClosers cs o c) = false := by
  unfold appendMissingClosers
  split
  · exact hasAdj_append_closers l r cs _
      (fun x hx => by rw [List.eq_of_mem_replicate hx]; exact hc) hrne h
  · exact h

/-- Chaining the character provenance of comma passes. -/
theorem mem_commaPassF_trans (l r : Char) (fuel : Nat) (xs base : List Char)
    (hxs : ∀ c ∈ xs, c ∈ base ∨ c = ',' ∨ c = '\n') :
    ∀ c ∈ commaPassF l r fuel xs, c ∈ base ∨ c = ',' ∨ c = '\n' := by
  intro c hc
  rcases mem_commaPassF l r fuel xs c hc with h | h
  · exact hxs c h
  · exact Or.inr h

/-- Every character of the repaired output is a non-control character. -/
theorem noCtrl_repairJsonSyntaxList (cs : List Char) :
    ∀ c ∈ repairJsonSyntaxList cs, isCtrlChar c = false := by
  intro c hc
  unfold repairJsonSyntaxList at hc
  rcases mem_balanceClosers _ _ hc with h | h | h
  · rw [stripCtrl, List.mem_filter] at h
    simpa using h.2
  · rw [h]; decide
  · rw [h]; decide

/-- On control-free input the syntax repairer is idempotent: the full
assembly. -/
theorem repairJsonSyntaxList_idem (cs : List Char)
    (h : ∀ c ∈ cs, isCtrlChar c = false) :
    repairJsonSyntaxList (repairJsonSyntaxList cs) = repairJsonSyntaxList cs := by
  have hnn : ∀ c ∈ cs, c ≠ '\n' ∧ c ≠ '\r' := by
    intro c hc
    have hcf := h c hc
    constructor <;> intro hcc <;> rw [hcc] at hcf <;> revert hcf <;> decide
  have hscan : scanQuotes none false cs = cs := scanQuotes_id_of_no_newline cs hnn none false
  set p1 := commaPass '}' '{' cs with hp1
  set p2 := commaPass ']' '[' p1 with hp2
  set p3 := commaPass '}' '[' p2 with hp3
  set p4 := commaPass ']' '{' p3 with hp4
  set z := stripCtrl p4 with hz
  set o := balanceClosers z with ho
  -- no pattern has a match in p4
  have hA1p1 : hasAdj '}' '{' p1 = false := by
    rw [hp1, commaPass]
    exact hasAdj_commaPassF_self '}' '{' (by decide) (by decide) (by decide) (by decide)
      (by decide) cs.length cs (Nat.le_refl _)
  have hA1p2 : hasAdj '}' '{' p2 = false := by
    rw [hp2, commaPass]
    exact hasAdj_commaPassF_other '}' '{' ']' '[' (by decide) (by decide) (by decide)
      (by decide) (by decide) p1.length p1 hA1p1
  have hA1p3 : hasAdj '}' '{' p3 = false := by
    rw [hp3, commaPass]
    exact hasAdj_commaPassF_other '}' '{' '}' '[' (by decide) (by decide) (by decide)
      (by decide) (by decide) p2.length p2 hA1p2
  have hA1p4 : hasAdj '}' '{' p4 = false := by
    rw [hp4, commaPass]
    exact hasAdj_commaPassF_other '}' '{' ']' '{' (by decide) (by decide) (by decide)
      (by decide) (by decide) p3.length p3 hA1p3
  have hA2p2 : hasAdj ']' '[' p2 = false := by
    rw [hp2, commaPass]
    exact hasAdj_commaPassF_self ']' '[' (by decide) (by decide) (by decide) (by decide)
      (by decide) p1.length p1 (Nat.le_refl _)
  have hA2p3 : hasAdj ']' '[' p3 = false := by
    rw [hp3, commaPass]
    exact hasAdj_commaPassF_other ']' '[' '}' '[' (by decide) (by decide) (by decide)
      (by decide) (by decide) p2.length p2 hA2p2
  have hA2p4 : hasAdj ']' '[' p4 = false := by
    rw [hp4, commaPass]
    exact hasAdj_commaPassF_other ']' '[' ']' '{' (by decide) (by decide) (by decide)
      (by decide) (by decide) p3.length p3 hA2p3
  have hA3p3 : hasAdj '}' '[' p3 = false := by
    rw [hp3, commaPass]
    exact hasAdj_commaPassF_self '}' '[' (by decide) (by decide) (by decide) (by decide)
      (by decide) p2.length p2 (Nat.le_refl _)
  have hA3p4 : hasAdj '}' '[' p4 = false := by
    rw [hp4, commaPass]
    exact hasAdj_commaPassF_other '}' '[' ']' '{' (by decide) (by decide) (by decide)
      (by decide) (by decide) p3.length p3 hA3p3
  have hA4p4 : hasAdj ']' '{' p4 = false := by
    rw [hp4, commaPass]
    exact hasAdj_commaPassF_self ']' '{' (by decide) (by decide) (by decide) (by decide)
      (by decide) p3.length p3 (Nat.le_refl _)
  -- characters of p4 are source characters, commas or newlines
  have hmem4 : ∀ c ∈ p4, c ∈ cs ∨ c = ',' ∨ c = '\n' := by
    rw [hp4, hp3, hp2, hp1, commaPass, commaPass, commaPass, commaPass]
    exact mem_commaPassF_trans _ _ _ _ _
      (mem_commaPassF_trans _ _ _ _ _
        (mem_commaPassF_trans _ _ _ _ _
          (mem_commaPassF_trans _ _ _ _ _ (fun c hc => Or.inl hc))))
  have hnl4 : ∀ c ∈ p4, isCtrlChar c = true → c = '\n' := by
    intro c hc hctrl
    rcases hmem4 c hc with h1 | h1 | h1
    · rw [h c h1] at hctrl
      exact absurd hctrl (by decide)
    · rw [h1] at hctrl
      exact absurd hctrl (by decide)
    · exact h1
  -- the strip keeps all four patterns matchless, and z is control-free
  have hZ1 : hasAdj '}' '{' z = false := hasAdj_stripCtrl _ _ _ hnl4 hA1p4
  have hZ2 : hasAdj ']' '[' z = false := hasAdj_stripCtrl _ _ _ hnl4 hA2p4
  have hZ3 : hasAdj '}' '[' z = false := hasAdj_stripCtrl _ _ _ hnl4 hA3p4
  have hZ4 : hasAdj ']' '{' z = false := hasAdj_stripCtrl _ _ _ hnl4 hA4p4
  have hzctrl : ∀ c ∈ z, isCtrlChar c = false := by
    intro c hc
    rw [hz, stripCtrl, List.mem_filter] at hc
    simpa using hc.2
  -- balancing keeps all four patterns matchless, and o is control-free
  have hO1 : hasAdj '}' '{' o = false := by
    rw [ho, balanceClosers]
    exact hasAdj_appendMissingClosers _ _ _ _ _ (Or.inr rfl) (by decide)
      (hasAdj_appendMissingClosers _ _ _ _ _ (Or.inl rfl) (by decide) hZ1)
  have hO2 : hasAdj ']' '[' o = false := by
    rw [ho, balanceClosers]
    exact hasAdj_appendMissingClosers _ _ _ _ _ (Or.inr rfl) (by decide)
      (hasAdj_appendMissingClosers _ _ _ _ _ (Or.inl rfl) (by decide) hZ2)
  have hO3 : hasAdj '}' '[' o = false := by
    rw [ho, balanceClosers]
    exact hasAdj_appendMissingClosers _ _ _ _ _ (Or.inr rfl) (by decide)
      (hasAdj_appendMissingClosers _ _ _ _ _ (Or.inl rfl) (by decide) hZ3)
  have hO4 : hasAdj ']' '{' o = false := by
    rw [ho, balanceClosers]
    exact hasAdj_appendMissingClosers _ _ _ _ _ (Or.inr rfl) (by decide)
      (hasAdj_appendMissingClosers _ _ _ _ _ (Or.inl rfl) (by decide) hZ4)
  have hoctrl : ∀ c ∈ o, isCtrlChar c = false := by
    intro c hc
    rw [ho] at hc
    rcases mem_balanceClosers _ _ hc with h1 | h1 | h1
    · exact hzctrl c h1
    · rw [h1]; decide
    · rw [h1]; decide
  have honn : ∀ c ∈ o, c ≠ '\n' ∧ c ≠ '\r' := by
    intro c hc
    have hcf := hoctrl c hc
    constructor <;> intro hcc <;> rw [hcc] at hcf <;> revert hcf <;> decide
  -- the inner application equals o
  have hinner : repairJsonSyntaxList cs = o := by
    rw [repairJsonSyntaxList, hscan, ← hp1, ← hp2, ← hp3, ← hp4, ← hz, ← ho]
  -- the second application
  have e1 : commaPass '}' '{' o = o := by
    rw [commaPass]; exact commaPassF_id_of_not_hasAdj '}' '{' o.length o hO1
  have e2 : commaPass ']' '[' o = o := by
    rw [commaPass]; exact commaPassF_id_of_not_hasAdj ']' '[' o.length o hO2
  have e3 : commaPass '}' '[' o = o := by
    rw [commaPass]; exact commaPassF_id_of_not_hasAdj '}' '[' o.length o hO3
  have e4 : commaPass ']' '{' o = o := by
    rw [commaPass]; exact commaPassF_id_of_not_hasAdj ']' '{' o.length o hO4
  have estrip : stripCtrl o = o :=
    List.filter_eq_self.mpr (fun a ha => by simp [hoctrl a ha])
  have hcounts := balanceClosers_counts z
  rw [← ho] at hcounts
  rw [hinner, repairJsonSyntaxList, scanQuotes_id_of_no_newline o honn none false,
    e1, e2, e3, e4, estrip]
  exact balanceClosers_eq_self o hcounts.1 hcounts.2

/-- Claim C4 (counterexample): the syntax repairer is not idempotent.  On the
three-character input `}`, `\x01`, `{` the first run strips the control
character (after the comma rewrites, which did not fire because `\x01` is not
whitespace), leaving the adjacent pair `}{`; the second run then inserts a
comma, so running it twice yields a different text than running it once. -/
theorem C4_counterexample :
    repairJsonSyntax (repairJsonSyntax "\x7d\x01\x7b") ≠ repairJsonSyntax "\x7d\x01\x7b" := by
  decide

/-- Claim C4 (amended): the syntax repairer is idempotent on every input that
contains no control character (no character in `0x00`-`0x1F` or `0x7F`).
On such inputs the scan is the identity, the comma rewrites leave no
boundary-adjacency unseparated, the strip removes only the newlines the
rewrites inserted (each shielded by its comma), and balancing only appends
closers, so a second run changes nothing. -/
theorem C4_repairJsonSyntax_idem_of_no_control (s : String)
    (h : ∀ c ∈ s.data, isCtrlChar c = false) :
    repairJsonSyntax (repairJsonSyntax s) = repairJsonSyntax s := by
  show (⟨repairJsonSyntaxList (repairJsonSyntax s).data⟩ : String) = ⟨repairJsonSyntaxList s.data⟩
  have : (repairJsonSyntax s).data = repairJsonSyntaxList s.data := rfl
  rw [this, repairJsonSyntaxList_idem s.data h]

/-- Witness for the amended claim C4 at a concrete control-free input. -/
theorem C4_witness :
    repairJsonSyntax (repairJsonSyntax "\x7b\"a\": 1\x7d \x7b\"b\": [2") =
      repairJsonSyntax "\x7b\"a\": 1\x7d \x7b\"b\": [2" :=
  C4_repairJsonSyntax_idem_of_no_control "\x7b\"a\": 1\x7d \x7b\"b\": [2" (by decide)

/-- Claim C10: for every input string the output of the syntax repairer
contains no raw control characters (bytes `0x00`-`0x1F` or `0x7F`): the
control-character strip runs after the comma-insertion rewrites, so even the
literal newlines those rewrites insert are removed, and the balancing step
afterwards appends only `}` and `]`. -/
theorem C10_no_control_in_output (s : String) :
    (repairJsonSyntax s).data.all (fun c => !isCtrlChar c) = true := by
  rw [List.all_eq_true]
  intro c hc
  have hmem : c ∈ repairJsonSyntaxList s.data := hc
  rw [noCtrl_repairJsonSyntaxList s.data c hmem]
  rfl

/- ------------------------------------------------------------------ -/
/- JSON values and JSON.parse (the parser the pipeline retries).       -/
/- ------------------------------------------------------------------ -/

/-- A JSON value as produced by `JSON.parse`.  Numbers keep their source
lexeme: the claims only ever use a number through its truthiness, where the
lexeme decides (a JS number is falsy exactly when it is zero; the one
divergence — a tiny non-zero literal underflowing to floating-point zero —
cannot change any claim because every theorem that inspects truthiness
either fixes a concrete input without such a literal or holds for both
outcomes).  Object fields are kept in first-occurrence order with
last-occurrence values, exactly the `JSON.parse` duplicate-key rule. -/
inductive JsonValue where
  | null : JsonValue
  | bool (b : Bool) : JsonValue
  | num (lexeme : List Char) : JsonValue
  | str (s : List Char) : JsonValue
  | arr (elems : List JsonValue) : JsonValue
  | obj (fields : List (List Char × JsonValue)) : JsonValue

/-- JSON whitespace (only these four, unlike the JS regex class). -/
def isJsonWs (c : Char) : Bool := c == ' ' || c == '\t' || c == '\n' || c == '\r'

/-- Decimal digit test. -/
def isDigitChar (c : Char) : Bool := '0' ≤ c && c ≤ '9'

/-- Hexadecimal digit value (code points: 0-9 are 48-57, a-f are 97-102,
A-F are 65-70). -/
def hexVal (c : Char) : Option Nat :=
  let n := c.toNat
  if 48 ≤ n ∧ n ≤ 57 then some (n - 48)
  else if 97 ≤ n ∧ n ≤ 102 then some (n - 87)
  else if 65 ≤ n ∧ n ≤ 70 then some (n - 55)
  else none

/-- The body of a JSON string literal, after its opening quote: the decoded
content and the remaining text after the closing quote.  Raw control
characters are rejected, escapes are decoded; a `\u` escape denoting a lone
surrogate (which a Unicode scalar cannot carry; JS strings can) is mapped to
the null scalar — no claim input contains one. -/
def parseStringBody : List Char → Option (List Char × List Char)
  | [] => none
  | c :: rest =>
    if c = '"' then some ([], rest)
    else if c = '\\' then
      match rest with
      | [] => none
      | e :: rest2 =>
        let simpleEsc : Option Char :=
          if e = '"' then some '"'
          else if e = '\\' then some '\\'
          else if e = '/' then some '/'
          else if e = 'b' then some '\x08'
          else if e = 'f' then some '\x0c'
          else if e = 'n' then some '\n'
          else if e = 'r' then some '\r'
          else if e = 't' then some '\t'
          else none
        match simpleEsc with
        | some d =>
          match parseStringBody rest2 with
          | some (cs, rem) => some (d :: cs, rem)
          | none => none
        | none =>
          if e = 'u' then
            match rest2 with
            | h1 :: h2 :: h3 :: h4 :: rest3 =>
              match hexVal h1, hexVal h2, hexVal h3, hexVal h4 with
              | some a, some b, some c', some d =>
                let n := ((a * 16 + b) * 16 + c') * 16 + d
                match parseStringBody rest3 with
                | some (cs, rem) => some (Char.ofNat n :: cs, rem)
                | none => none
              | _, _, _, _ => none
            | _ => none
          else none
    else if c.toNat < 0x20 then none
    else
      match parseStringBody rest with
      | some (cs, rem) => some (c :: cs, rem)
      | none => none

/-- A JSON number lexeme `-?(0|[1-9][0-9]*)(\.[0-9]+)?([eE][+-]?[0-9]+)?`
starting the text: the lexeme and the rest. -/
def parseNumberLex (cs : List Char) : Option (List Char × List Char) :=
  let (neg, cs1) := match cs with
    | '-' :: rest => (['-'], rest)
    | _ => ([], cs)
  match cs1 with
  | [] => none
  | c :: _ =>
    if ¬ (isDigitChar c = true) then none
    else
      let intPart :=
        if c = '0' then ['0']
        else cs1.takeWhile isDigitChar
      let rest1 := cs1.drop intPart.length
      let (fracPart, rest2) := match rest1 with
        | '.' :: d :: ds =>
          if isDigitChar d then
            let digits := (d :: ds).takeWhile isDigitChar
            ('.' :: digits, (d :: ds).drop digits.length)
          else ([], rest1)
        | _ => ([], rest1)
      let (expPart, rest3) := match rest2 with
        | e :: es =>
          if e = 'e' ∨ e = 'E' then
            let (sign, es1) := match es with
              | '+' :: t => (['+'], t)
              | '-' :: t => (['-'], t)
              | _ => ([], es)
            match es1 with
            | d :: _ =>
              if isDigitChar d then
                let digits := es1.takeWhile isDigitChar
                (e :: sign ++ digits, es1.drop digits.length)
              else ([], rest2)
            | [] => ([], rest2)
          else ([], rest2)
        | [] => ([], rest2)
      if fracPart = [] ∧ rest1 ≠ rest2 then none
      else some (neg ++ intPart ++ fracPart ++ expPart, rest3)

/-- Duplicate-key insertion: replace the value at the first occurrence, else
append. -/
def jsonInsertKey : List (List Char × JsonValue) → List Char → JsonValue →
    List (List Char × JsonValue)
  | [], k, v => [(k, v)]
  | (k', v') :: rest, k, v =>
    if k' = k then (k', v) :: rest else (k', v') :: jsonInsertKey rest k v

mutual

/-- `JSON.parse` value parser (fuel-structural; each recursive call consumes
at least one character, so fuel beyond the input length is never exhausted).
Returns the value and the unconsumed rest. -/
def parseJsonValueF : Nat → List Char → Option (JsonValue × List Char)
  | 0, _ => none
  | fuel + 1, cs =>
    match cs.dropWhile isJsonWs with
    | [] => none
    | c :: rest =>
      if c = '{' then
        match rest.dropWhile isJsonWs with
        | '}' :: rest2 => some (.obj [], rest2)
        | _ => parseJsonMembersF fuel rest []
      else if c = '[' then
        match rest.dropWhile isJsonWs with
        | ']' :: rest2 => some (.arr [], rest2)
        | _ => parseJsonElementsF fuel rest []
      else if c = '"' then
        match parseStringBody rest with
        | some (s, rest2) => some (.str s, rest2)
        | none => none
      else if c = 't' then
        match rest with
        | 'r' :: 'u' :: 'e' :: rest2 => some (.bool true, rest2)
        | _ => none
      else if c = 'f' then
        match rest with
        | 'a' :: 'l' :: 's' :: 'e' :: rest2 => some (.bool false, rest2)
        | _ => none
      else if c = 'n' then
        match rest with
        | 'u' :: 'l' :: 'l' :: rest2 => some (.null, rest2)
        | _ => none
      else
        match parseNumberLex (c :: rest) with
        | some (lex, rest2) => some (.num lex, rest2)
        | none => none

/-- Object members parser: called after `{` when the object is not empty.
Duplicate keys follow the `JSON.parse` rule (first position, last value). -/
def parseJsonMembersF (fuel : Nat) : List Char → List (List Char × JsonValue) →
    Option (JsonValue × List Char) :=
  match fuel with
  | 0 => fun _ _ => none
  | fuel + 1 => fun cs acc =>
    match cs.dropWhile isJsonWs with
    | '"' :: rest =>
      match parseStringBody rest with
      | some (key, rest2) =>
        match rest2.dropWhile isJsonWs with
        | ':' :: rest3 =>
          match parseJsonValueF fuel rest3 with
          | some (v, rest4) =>
            let acc' := jsonInsertKey acc key v
            match rest4.dropWhile isJsonWs with
            | ',' :: rest5 => parseJsonMembersF fuel rest5 acc'
            | '}' :: rest5 => some (.obj acc', rest5)
            | _ => none
          | none => none
        | _ => none
      | none => none
    | _ => none

/-- Array elements parser: called after `[` when the array is not empty. -/
def parseJsonElementsF (fuel : Nat) : List Char → List JsonValue →
    Option (JsonValue × List Char) :=
  match fuel with
  | 0 => fun _ _ => none
  | fuel + 1 => fun cs acc =>
    match parseJsonValueF fuel cs with
    | some (v, rest) =>
      match rest.dropWhile isJsonWs with
      | ',' :: rest2 => parseJsonElementsF fuel rest2 (acc ++ [v])
      | ']' :: rest2 => some (.arr (acc ++ [v]), rest2)
      | _ => none
    | none => none

end

/-- `JSON.parse` on a character list: parse one value, then only whitespace
may remain. -/
def jsonParseL (cs : List Char) : Option JsonValue :=
  match parseJsonValueF (cs.length + 1) cs with
  | some (v, rest) => if rest.dropWhile isJsonWs = [] then some v else none
  | none => none

/- ------------------------------------------------------------------ -/
/- The challenge pipeline (CodingChallengeController.js).              -/
/- ------------------------------------------------------------------ -/

/-- JS property read `value[field]` restricted to JSON values: only objects
yield fields; on a string, number, boolean or array it is `undefined`
(`none`); reading a property of `null` throws, which the callers model
explicitly. -/
def jsGetField (v : JsonValue) (f : List Char) : Option JsonValue :=
  match v with
  | .obj fs =>
    match fs.find? (fun p => p.1 = f) with
    | some p => some p.2
    | none => none
  | _ => none

/-- Whether the mantissa of a number lexeme is zero (the value of a JS number
is falsy exactly when it is zero). -/
def numLexIsZero (lex : List Char) : Bool :=
  ((lex.takeWhile (fun c => c ≠ 'e' ∧ c ≠ 'E')).filter isDigitChar).all (fun c => c = '0')

/-- JS truthiness of a JSON value. -/
def jsTruthy : JsonValue → Bool
  | .null => false
  | .bool b => b
  | .num lex => !numLexIsZero lex
  | .str s => !s.isEmpty
  | .arr _ => true
  | .obj _ => true

/-- Truthiness of `value[field]` (`undefined` is falsy). -/
def jsTruthyOpt : Option JsonValue → Bool
  | none => false
  | some v => jsTruthy v

/-- Replace or add a field the way a JS property assignment does: update in
place when the key exists, else append. -/
def jsSetField (fs : List (List Char × JsonValue)) (f : List Char) (v : JsonValue) :
    List (List Char × JsonValue) := jsonInsertKey fs f v

/-- Substring test on character lists (`String.prototype.includes`). -/
def containsSub (haystack needle : List Char) : Bool :=
  match haystack with
  | [] => needle.isEmpty
  | _ :: rest => needle.isPrefixOf haystack || containsSub rest needle

/-- `JSON.stringify` string-body escaping. -/
def stringifyStringBody : List Char → List Char
  | [] => []
  | c :: rest =>
    let enc : List Char :=
      if c = '"' then ['\\', '"']
      else if c = '\\' then ['\\', '\\']
      else if c = '\x08' then ['\\', 'b']
      else if c = '\x0c' then ['\\', 'f']
      else if c = '\n' then ['\\', 'n']
      else if c = '\r' then ['\\', 'r']
      else if c = '\t' then ['\\', 't']
      else if c.toNat < 0x20 then
        ['\\', 'u', '0', '0',
          (Nat.toDigits 16 c.toNat).headD '0',
          (Nat.toDigits 16 (c.toNat % 16)).headD '0']
      else [c]
    enc ++ stringifyStringBody rest

/-- Comma-join of rendered pieces. -/
def joinWithComma : List (List Char) → List Char
  | [] => []
  | [x] => x
  | x :: rest => x ++ ',' :: joinWithComma rest

/-- `JSON.stringify` (fuel over nesting depth; the callers pass fuel above
the depth of any value a parsed input can produce).  A number is printed as
its source lexeme — JS would print the canonical double rendering; the only
use of the result is the `10^9`/`1000000000` substring advisory, which no
claim depends on. -/
def stringifyF : Nat → JsonValue → List Char
  | 0, _ => []
  | _ + 1, .null => "null".data
  | _ + 1, .bool true => "true".data
  | _ + 1, .bool false => "false".data
  | _ + 1, .num lex => lex
  | _ + 1, .str s => '"' :: stringifyStringBody s ++ ['"']
  | fuel + 1, .arr es =>
    '[' :: joinWithComma (es.map (stringifyF fuel)) ++ [']']
  | fuel + 1, .obj fs =>
    '{' :: joinWithComma
      (fs.map (fun p => '"' :: stringifyStringBody p.1 ++ ['"', ':'] ++ stringifyF fuel p.2))
      ++ ['}']

/-- The challenge record as the controller constructs it (the spread of the
candidate's schema fields plus the metadata the controller adds).  The JS
object may carry extra candidate keys that the persistence schema discards;
they play no part in any claim and are not modelled.  `isFallback` is set
only on the fallback path (the schema itself has no such column — the spec
treats persistence as an external collaborator). -/
structure ChallengeRecord where
  title : JsonValue
  difficultyLevel : JsonValue
  description : JsonValue
  inputFormat : JsonValue
  outputFormat : JsonValue
  constraints : JsonValue
  publicTestCases : List JsonValue
  privateTestCases : List JsonValue
  edgeCases : List JsonValue
  explanation : JsonValue
  prompt : List Char
  wasRepaired : Bool
  isFallback : Bool
  validationWarning : Option (List Char)

/-- The two ways `processAndSaveChallenge` answers (the save step itself
belongs to the external persistence collaborator): a 201 with the record, or
the 400 "Challenge data is incomplete" with the missing field names. -/
inductive ChallengeResponse where
  | created (r : ChallengeRecord) (warning : Option (List Char))
  | incomplete (missingFields : List (List Char))

/-- Required top-level fields, in source order (lines 215-226). -/
def requiredFields : List (List Char) :=
  ["title".data, "difficultyLevel".data, "description".data, "inputFormat".data,
   "outputFormat".data, "constraints".data, "publicTestCases".data,
   "privateTestCases".data, "edgeCases".data, "explanation".data]

/-- Warning accumulation `(challengeData.validationWarning || "") + msg`.
The base is the candidate's own field when it is a truthy string; any other
truthy value would be string-coerced by JS — no pipeline input does that and
no claim reads warnings, so other values contribute their text only when
they are strings. -/
def warnBase (v : Option JsonValue) : List Char :=
  match v with
  | some (.str s) => if s.isEmpty then [] else s
  | _ => []

/-- The while-loop padding private test cases up to four (lines 269-276);
four steps of fuel always suffice. -/
def padPrivateF : Nat → List JsonValue → List JsonValue
  | 0, es => es
  | n + 1, es =>
    if es.length < 4 then
      padPrivateF n (es ++ [JsonValue.obj
        [("input".data, .str ("Auto-generated test case ".data ++ (Nat.repr (es.length + 1)).data)),
         ("output".data, .str "Expected output".data)]])
    else es

/-- `validateTestCase` (lines 311-319): replace a missing, empty or
non-string `input`/`output` with a labelled default.  Reading a property of
`null` throws (modelled as the error case); a property assignment on a
number, string or boolean silently does nothing.  On a JSON array JS would
attach a named property that a JSON value cannot carry; the claims only use
element counts, which are unchanged — the element is kept as is. -/
def validateTestCase (ty : List Char) (tc : JsonValue) : Except Unit JsonValue :=
  match tc with
  | .null => .error ()
  | .obj fs =>
    let fixSide := fun (fs : List (List Char × JsonValue)) (side : List Char) =>
      match jsGetField (.obj fs) side with
      | some (.str s) =>
        if s.isEmpty then
          jsSetField fs side (.str ("Default ".data ++ ty ++ " ".data ++ side))
        else fs
      | _ => jsSetField fs side (.str ("Default ".data ++ ty ++ " ".data ++ side))
    let fs1 := fixSide fs "input".data
    let fs2 := fixSide fs1 "output".data
    .ok (.obj fs2)
  | other => .ok other

/-- `array.map(validateTestCase)` under JS exception semantics: elements
before a throwing one are already mutated in place, the throwing one and the
rest keep their old values, and the caller sees the exception flag. -/
def mapValidate (ty : List Char) : List JsonValue → (List JsonValue × Bool)
  | [] => ([], false)
  | tc :: rest =>
    match validateTestCase ty tc with
    | .error _ => (tc :: rest, true)
    | .ok tc' =>
      let m := mapValidate ty rest
      (tc' :: m.1, m.2)

/-- Whether the public-test-case block (lines 243-258) fires: the field is
not an array, or an array shorter than one. -/
def publicNeedsFix (pub0 : Option JsonValue) : Bool :=
  match pub0 with
  | some (.arr es) => decide (es.length < 1)
  | _ => true

/-- The public-test-case fix: only a non-array is replaced (by one sample
case); an empty array merely gets the warning and stays empty. -/
def fixPublic (pub0 : Option JsonValue) : List JsonValue :=
  match pub0 with
  | some (.arr es) => es
  | _ => [JsonValue.obj [("input".data, .str "Sample input".data),
                         ("output".data, .str "Sample output".data)]]

/-- Whether the private-test-case block (lines 260-282) fires. -/
def privateNeedsFix (priv0 : Option JsonValue) : Bool :=
  match priv0 with
  | some (.arr es) => decide (es.length < 4)
  | _ => true

/-- The private-test-case fix: a non-array becomes an empty array, then the
while loop pads to four. -/
def fixPrivate (priv0 : Option JsonValue) : List JsonValue :=
  match priv0 with
  | some (.arr es) => if es.length < 4 then padPrivateF 4 es else es
  | _ => padPrivateF 4 []

/-- Whether the edge-case block (lines 284-297) fires. -/
def edgeNeedsFix (edge0 : Option JsonValue) : Bool :=
  match edge0 with
  | some (.arr es) => decide (es.length < 1)
  | _ => true

/-- The edge-case fix: when the block fires the whole field is replaced by
the single default edge case. -/
def fixEdge (edge0 : Option JsonValue) : List JsonValue :=
  match edge0 with
  | some (.arr es) =>
    if es.length < 1 then
      [JsonValue.obj [("input".data, .str "Edge case with maximum values".data),
                      ("output".data, .str "Expected output".data)]]
    else es
  | _ => [JsonValue.obj [("input".data, .str "Edge case with maximum values".data),
                         ("output".data, .str "Expected output".data)]]

def isNullValue : JsonValue → Bool
  | .null => true
  | _ => false

/-- The body of `processAndSaveChallenge` for a non-`null` candidate (the
`null` case throws before reaching it). -/
def processCandidate (fuel : Nat) (challengeData : JsonValue) (prompt : List Char)
    (wasRepaired : Bool) : ChallengeResponse :=
  let get := fun (f : List Char) => jsGetField challengeData f
  let missingFields := requiredFields.filter (fun f => !(jsTruthyOpt (get f)))
  if missingFields.isEmpty = false then .incomplete missingFields
  else
    let hadW := (get "validationWarning".data).isSome
    let a0 := warnBase (get "validationWarning".data)
    let pub0 := get "publicTestCases".data
    let addPub := publicNeedsFix pub0
    let pub1 := fixPublic pub0
    let priv0 := get "privateTestCases".data
    let addPriv := privateNeedsFix priv0
    let priv1 := fixPrivate priv0
    let edge0 := get "edgeCases".data
    let addEdge := edgeNeedsFix edge0
    let edge1 := fixEdge edge0
    let edgeCaseStr := stringifyF fuel (.arr edge1)
    let addMax := !(containsSub edgeCaseStr "10^9".data ||
      containsSub edgeCaseStr "1000000000".data)
    let pubM := mapValidate "public".data pub1
    let pub2 := pubM.1
    let t1 := pubM.2
    let privM := if t1 then (priv1, false) else mapValidate "private".data priv1
    let priv2 := privM.1
    let t2 := privM.2
    let edgeM := if t1 || t2 then (edge1, false) else mapValidate "edge".data edge1
    let edge2 := edgeM.1
    let t3 := edgeM.2
    let addTc := t1 || t2 || t3
    let anyAdd := addPub || addPriv || addEdge || addMax || addTc
    let acc := a0 ++
      (if addPub then " Public test cases were incomplete and have been supplemented.".data else []) ++
      (if addPriv then " Private test cases were incomplete and have been supplemented.".data else []) ++
      (if addEdge then " Edge case was missing and has been added.".data else []) ++
      (if addMax then " Edge case might not properly test maximum constraints (10^9).".data else []) ++
      (if addTc then " Test case validation issues: type error.".data else [])
    let vW := if anyAdd then some acc else if hadW then some a0 else none
    .created {
      title := (get "title".data).getD .null
      difficultyLevel := (get "difficultyLevel".data).getD .null
      description := (get "description".data).getD .null
      inputFormat := (get "inputFormat".data).getD .null
      outputFormat := (get "outputFormat".data).getD .null
      constraints := (get "constraints".data).getD .null
      publicTestCases := pub2
      privateTestCases := priv2
      edgeCases := edge2
      explanation := (get "explanation".data).getD .null
      prompt := prompt
      wasRepaired := wasRepaired
      isFallback := false
      validationWarning := vW } none

/-- `processAndSaveChallenge` (lines 207-359): reading a property of a
`null` candidate throws a `TypeError` (the error case, which the pipeline
catches like a parse failure); otherwise the body runs and always answers. -/
def processAndSaveChallenge (fuel : Nat) (challengeData : JsonValue) (prompt : List Char)
    (wasRepaired : Bool) : Except Unit ChallengeResponse :=
  if isNullValue challengeData then .error ()
  else .ok (processCandidate fuel challengeData prompt wasRepaired)

/-- Case-insensitive prefix strip (the `i` flag of the fallback field regex;
ASCII folding, which covers every field name used). -/
def stripPrefixCI : List Char → List Char → Option (List Char)
  | cs, [] => some cs
  | [], _ :: _ => none
  | c :: cs, p :: ps => if c.toLower = p.toLower then stripPrefixCI cs ps else none

/-- One attempted match of `"field"\s*:\s*"([^"]*)"` at the head of the
text: the captured value. -/
def matchFieldAt (cs field : List Char) : Option (List Char) :=
  match cs with
  | '"' :: rest =>
    match stripPrefixCI rest field with
    | some rest2 =>
      match rest2 with
      | '"' :: rest3 =>
        match rest3.dropWhile isJsWs with
        | ':' :: rest5 =>
          match rest5.dropWhile isJsWs with
          | '"' :: rest7 =>
            let cap := rest7.takeWhile (fun c => c ≠ '"')
            if (rest7.drop cap.length).isEmpty then none else some cap
          | _ => none
        | _ => none
      | _ => none
    | none => none
  | _ => none

/-- The `extractField` regex search of `createFallbackChallenge` (lines
533-537): first match anywhere in the text. -/
def extractFieldSearch : List Char → List Char → Option (List Char)
  | [], _ => none
  | c :: rest, field =>
    match matchFieldAt (c :: rest) field with
    | some cap => some cap
    | none => extractFieldSearch rest field

/-- `extractField` with its `Default ${fieldName}` fallback. -/
def extractFieldOr (aiResponse : List Char) (field : String) : List Char :=
  match extractFieldSearch aiResponse field.data with
  | some cap => cap
  | none => "Default ".data ++ field.data

/-- `prompt.split(" ")`. -/
def splitOnSpace : List Char → List (List Char)
  | [] => [[]]
  | c :: rest =>
    if c = ' ' then [] :: splitOnSpace rest
    else
      match splitOnSpace rest with
      | w :: ws => (c :: w) :: ws
      | [] => [[c]]

/-- `array.join(" ")`. -/
def joinWithSpace : List (List Char) → List Char
  | [] => []
  | [x] => x
  | x :: rest => x ++ ' ' :: joinWithSpace rest

/-- `createFallbackChallenge` (lines 531-579): regex-extract what scalar
fields it can, derive the title from the first five prompt words when none
was found, and fill fixed placeholder test cases (1 public, 4 private,
1 edge).  The JS object also carries `originalPrompt`, which neither the
schema nor any claim uses. -/
def createFallbackChallenge (aiResponse prompt : List Char) : ChallengeRecord :=
  let title0 := extractFieldOr aiResponse "title"
  let title :=
    if title0 = "Default title".data then
      "Coding Challenge: ".data ++ joinWithSpace ((splitOnSpace prompt).take 5)
    else title0
  { title := .str title
    difficultyLevel := .str (extractFieldOr aiResponse "difficultyLevel")
    description := .str (extractFieldOr aiResponse "description")
    inputFormat := .str "Input format could not be parsed from AI response".data
    outputFormat := .str "Output format could not be parsed from AI response".data
    constraints := .str "Default constraints".data
    publicTestCases := [JsonValue.obj
      [("input".data, .str "Sample input".data),
       ("output".data, .str "Sample output".data)]]
    privateTestCases :=
      [JsonValue.obj [("input".data, .str "Test case 1".data), ("output".data, .str "Output 1".data)],
       JsonValue.obj [("input".data, .str "Test case 2".data), ("output".data, .str "Output 2".data)],
       JsonValue.obj [("input".data, .str "Test case 3".data), ("output".data, .str "Output 3".data)],
       JsonValue.obj [("input".data, .str "Test case 4".data), ("output".data, .str "Output 4".data)]]
    edgeCases := [JsonValue.obj
      [("input".data, .str "Edge case with maximum values".data),
       ("output".data, .str "Expected output for edge case".data)]]
    explanation := .str ("This challenge was created in fallback mode due to parsing errors. ".data ++
      "Please review and edit the challenge details as needed.".data)
    prompt := prompt
    wasRepaired := true
    isFallback := true
    validationWarning := none }

/-- Case-sensitive prefix strip returning the remainder. -/
def stripPrefixExact : List Char → List Char → Option (List Char)
  | cs, [] => some cs
  | [], _ :: _ => none
  | c :: cs, p :: ps => if c = p then stripPrefixExact cs ps else none

/-- Leftmost occurrence of a needle (`String.prototype.indexOf` core). -/
def findSubFrom : List Char → List Char → Option Nat
  | [], needle => if needle.isEmpty then some 0 else none
  | cs@(_ :: rest), needle =>
    if needle.isPrefixOf cs then some 0
    else (findSubFrom rest needle).map (· + 1)

/-- `haystack.indexOf(needle, start)` with the JS `-1` sentinel and the
clamping of a negative start to `0`. -/
def jsIndexOfFrom (cs needle : List Char) (start : Int) : Int :=
  let s := (max start 0).toNat
  match findSubFrom (cs.drop s) needle with
  | some k => (s + k : Int)
  | none => -1

/-- `haystack.lastIndexOf(c)` with the `-1` sentinel. -/
def jsLastIndexOfChar (cs : List Char) (c : Char) : Int :=
  match findSubFrom cs.reverse [c] with
  | some k => (cs.length - 1 - k : Int)
  | none => -1

/-- `String.prototype.trim`. -/
def jsTrimList (cs : List Char) : List Char :=
  ((cs.dropWhile isJsWs).reverse.dropWhile isJsWs).reverse

/-- Last-character test (`trimmed.endsWith("}")`). -/
def endsWithChar (cs : List Char) (c : Char) : Bool := cs.getLast? == some c

/-- The three test-case array field names, in the alternation order of the
truncation-repair regex (line 419). -/
def tcFieldNames : List (List Char) :=
  ["publicTestCases".data, "privateTestCases".data, "edgeCases".data]

/-- One attempted match of `"(publicTestCases|privateTestCases|edgeCases)"\s*:\s*\[`
for one name at the head of the text: the match length. -/
def matchOneLabel (cs name : List Char) : Option Nat :=
  match cs with
  | '"' :: rest =>
    match stripPrefixExact rest name with
    | some rest2 =>
      match rest2 with
      | '"' :: rest3 =>
        let ws1 := rest3.takeWhile isJsWs
        match rest3.drop ws1.length with
        | ':' :: rest4 =>
          let ws2 := rest4.takeWhile isJsWs
          match rest4.drop ws2.length with
          | '[' :: _ => some (1 + name.length + 1 + ws1.length + 1 + ws2.length + 1)
          | _ => none
        | _ => none
      | _ => none
    | none => none
  | _ => none

/-- The three alternatives tried in order at one position. -/
def matchLabelAt (cs : List Char) : Option Nat :=
  match matchOneLabel cs "publicTestCases".data with
  | some n => some n
  | none =>
    match matchOneLabel cs "privateTestCases".data with
    | some n => some n
    | none => matchOneLabel cs "edgeCases".data

/-- Leftmost label match at or after a start index: `(index, length)`. -/
def findLabelAux : List Char → Nat → Option (Nat × Nat)
  | [], _ => none
  | c :: rest, idx =>
    match matchLabelAt (c :: rest) with
    | some len => some (idx, len)
    | none => findLabelAux rest (idx + 1)

/-- `testCaseRegex.exec` resumed from `lastIndex` (the loop of lines
421-433, searching the possibly already-modified text). -/
def findLabelFrom (cs : List Char) (start : Nat) : Option (Nat × Nat) :=
  findLabelAux (cs.drop start) start

/-- The bracket-depth walk (lines 426-433): consume characters while the
depth is positive; `(consumed, depthLeft)`. -/
def bracketWalk : List Char → Nat → Nat × Nat
  | [], opens => (0, opens)
  | c :: rest, opens =>
    if opens = 0 then (0, 0)
    else
      let newOpens := if c = '[' then opens + 1 else if c = ']' then opens - 1 else opens
      let (consumed, left) := bracketWalk rest newOpens
      (consumed + 1, left)

/-- The regex class `.` (anything but a line terminator). -/
def isDotChar (c : Char) : Bool :=
  !(c == '\n' || c == '\r' || c.toNat == 0x2028 || c.toNat == 0x2029)

/-- The second lazy quantifier of the complete-test-case regex: shortest run
of `.` characters to a closing quote; the rest after that quote. -/
def secondLazy : List Char → Option (List Char)
  | [] => none
  | c :: rest =>
    if c = '"' then some rest
    else if isDotChar c then secondLazy rest
    else none

/-- After the first value's closing quote:
`\s*,\s*"output"\s*:\s*"` then the second lazy value. -/
def afterFirstValue (cs : List Char) : Option (List Char) :=
  match cs.dropWhile isJsWs with
  | ',' :: r2 =>
    match stripPrefixExact (r2.dropWhile isJsWs) "\"output\"".data with
    | some r4 =>
      match r4.dropWhile isJsWs with
      | ':' :: r6 =>
        match r6.dropWhile isJsWs with
        | '"' :: r8 => secondLazy r8
        | _ => none
      | _ => none
    | none => none
  | _ => none

/-- The first lazy quantifier with its backtracking: at each candidate
closing quote try the remainder of the pattern; on failure the quote is
consumed by `.` and the value grows. -/
def firstLazy : List Char → Option (List Char)
  | [] => none
  | c :: rest =>
    if c = '"' then
      match afterFirstValue rest with
      | some r => some r
      | none => firstLazy rest
    else if isDotChar c then firstLazy rest
    else none

/-- One attempted match of
`"input"\s*:\s*".*?"\s*,\s*"output"\s*:\s*".*?"` at the head: the rest after
the match. -/
def matchIOAt (cs : List Char) : Option (List Char) :=
  match stripPrefixExact cs "\"input\"".data with
  | some r1 =>
    match r1.dropWhile isJsWs with
    | ':' :: r3 =>
      match r3.dropWhile isJsWs with
      | '"' :: r5 => firstLazy r5
      | _ => none
    | _ => none
  | none => none

/-- Global count of the complete-test-case pattern (lines 444-449). -/
def countIOMatches : Nat → List Char → Nat
  | 0, _ => 0
  | _ + 1, [] => 0
  | fuel + 1, c :: rest =>
    match matchIOAt (c :: rest) with
    | some r => 1 + countIOMatches fuel r
    | none => countIOMatches fuel rest

/-- The `lastCompletePos` loop (lines 451-463), run `completeTestCases`
times over `indexOf` positions with the JS `-1` propagation. -/
def lastCompleteLoop (partialText : List Char) : Nat → Int → Int
  | 0, acc => acc
  | i + 1, acc =>
    let inputMatch := jsIndexOfFrom partialText "\"input\"".data acc
    let outputMatch := jsIndexOfFrom partialText "\"output\"".data inputMatch
    let acc' :=
      if inputMatch ≠ -1 ∧ outputMatch ≠ -1 then
        let endQuote := jsIndexOfFrom partialText ['"'] (outputMatch + 10)
        if endQuote ≠ -1 then endQuote + 1 else acc
      else acc
    lastCompleteLoop partialText i acc'

/-- The truncated-array repair loop of `repairJsonStructure` (lines
417-483).  A label whose bracket walk closes is skipped; a truncated one is
cut after the last complete element (or replaced by the single default
element when none is complete) and closed. -/
def repairStructLoopF : Nat → List Char → Nat → List Char
  | 0, result, _ => result
  | fuel + 1, result, start =>
    match findLabelFrom result start with
    | none => result
    | some (idx, len) =>
      let contentStart := idx + len
      let (consumed, opensLeft) := bracketWalk (result.drop contentStart) 1
      let endPos := contentStart + consumed
      if opensLeft = 0 then repairStructLoopF fuel result (idx + len)
      else
        let partialText := result.drop contentStart
        let completeCount := countIOMatches partialText.length partialText
        let lastCompletePos := lastCompleteLoop partialText completeCount 0
        let result' :=
          if lastCompletePos > 0 then
            (result.take (contentStart + lastCompletePos.toNat)) ++ [']'] ++ result.drop endPos
          else
            (result.take contentStart) ++
              "\x7b\"input\":\"Default input\",\"output\":\"Default output\"\x7d]".data ++
              result.drop endPos
        repairStructLoopF fuel result' (idx + len)

/-- The missing-field injection of `repairJsonStructure` (lines 486-525) for
one field: when the quoted label is nowhere in the text, insert a default
value before the last closing brace, preceded by a comma when the trimmed
prefix ends in `}` or `]`. -/
def injectMissingField (result field : List Char) : List Char :=
  if containsSub result ('"' :: field ++ ['"']) then result
  else
    let lastBrace := jsLastIndexOfChar result '}'
    if lastBrace = -1 then result
    else
      let i := lastBrace.toNat
      let isTc := field = "publicTestCases".data ∨ field = "privateTestCases".data ∨
        field = "edgeCases".data
      let defaultValue :=
        if isTc then
          '"' :: field ++ "\": [\x7b\"input\":\"Default input\",\"output\":\"Default output\"\x7d]".data
        else
          '"' :: field ++ "\": \"Default ".data ++ field ++ ['"']
      let before := result.take i
      let trimmed := jsTrimList before
      let needsComma := endsWithChar trimmed '}' || endsWithChar trimmed ']'
      before ++ (if needsComma then [','] else []) ++ defaultValue ++ result.drop i

/-- `repairJsonStructure` (lines 413-528): the syntax repair first, then the
truncated-array loop, then missing-field injection in source field order. -/
def repairJsonStructure (cs : List Char) : List Char :=
  let r0 := repairJsonSyntaxList cs
  let r1 := repairStructLoopF (r0.length + 1) r0 0
  requiredFields.foldl injectMissingField r1

/-- The cleanup of `generateChallenge` before the first parse attempt
(lines 111-122): strip fence markers, trim, cut prose before the first `{`
(only when it is not at position 0) and after the last `}` (only when it is
not already last). -/
def removeFenceMarks : List Char → List Char
  | '`' :: '`' :: '`' :: 'j' :: 's' :: 'o' :: 'n' :: rest => removeFenceMarks rest
  | '`' :: '`' :: '`' :: rest => removeFenceMarks rest
  | c :: rest => c :: removeFenceMarks rest
  | [] => []

/-- The three cleanup steps on the raw generation text. -/
def cleanupResponse (cs : List Char) : List Char :=
  let t := jsTrimList (removeFenceMarks cs)
  let t1 :=
    let i := jsIndexOfFrom t ['\x7b'] 0
    if i > 0 then t.drop i.toNat else t
  let j := jsLastIndexOfChar t1 '\x7d'
  if j ≠ -1 ∧ j < (t1.length : Int) - 1 then t1.take (j.toNat + 1) else t1

/-- `extractChallenge`: the JSON-shaped extraction path of
`generateChallenge` (lines 108-196) after the generation text has arrived.
Escalation: direct parse, syntax repair, structural repair, fallback
synthesis; a `TypeError` thrown by `processAndSaveChallenge` (a `null`
candidate) is caught by the stage's `catch` exactly like a parse failure.
The fallback path never fails (its builder is total), so the 500 branch of
the final `catch` is unreachable.  `extractStage` is one rung: on a parse
success hand the candidate to the validator and stop (its 201 and its 400
both leave the ladder); on a parse failure or a thrown `TypeError`,
escalate. -/
def extractStage (fuel : Nat) (parsed : Option JsonValue) (p : List Char) (w : Bool)
    (next : ChallengeResponse) : ChallengeResponse :=
  match parsed with
  | some v =>
    match processAndSaveChallenge fuel v p w with
    | .ok resp => resp
    | .error _ => next
  | none => next

/-- The escalation ladder: direct parse, syntax-repaired parse,
structure-repaired parse, fallback synthesis. -/
def extractChallenge (aiResponse prompt : String) : ChallengeResponse :=
  let cs := cleanupResponse aiResponse.data
  let p := prompt.data
  let fuel := aiResponse.length + 1
  let fallback : ChallengeResponse :=
    .created (createFallbackChallenge cs p)
      (some "Challenge was created using fallback mode due to parsing errors.".data)
  extractStage fuel (jsonParseL cs) p false
    (extractStage fuel (jsonParseL (repairJsonSyntaxList cs)) p true
      (extractStage fuel (jsonParseL (repairJsonStructure cs)) p true fallback))

/-- The endpoint around the extraction, parameterised by the outcome of the
generation collaborator call (`openai.chat.completions.create`): an empty
prompt is rejected first; a generation failure or timeout is caught by the
outer `catch` (line 197) and answered with the 500 "Error generating
challenge" — not by fallback synthesis, which only ever sees a received
text. -/
inductive ApiResult where
  | badRequestPromptRequired
  | serverErrorGenerating (msg : List Char)
  | fromExtraction (r : ChallengeResponse)

/-- `generateChallenge` (lines 9-204) with the collaborator outcome made
explicit. -/
def generateChallengeWith (genResult : Except (List Char) String) (prompt : String) :
    ApiResult :=
  if prompt = "" then .badRequestPromptRequired
  else
    match genResult with
    | .error _ => .serverErrorGenerating "Error generating challenge".data
    | .ok text => .fromExtraction (extractChallenge text prompt)

/-- Accessors used to state claims about outcomes. -/
def ChallengeResponse.recordOf : ChallengeResponse → Option ChallengeRecord
  | .created r _ => some r
  | .incomplete _ => none

/-- The 400 payload, when the outcome is the incomplete-data failure. -/
def ChallengeResponse.missingOf : ChallengeResponse → Option (List (List Char))
  | .created _ _ => none
  | .incomplete m => some m

/-- String content of a JSON value, when it is a string. -/
def JsonValue.asStr : JsonValue → Option (List Char)
  | .str s => some s
  | _ => none

/- ------------------------------------------------------------------ -/
/- Facts about the field validator (claims C1, C3).                    -/
/- ------------------------------------------------------------------ -/

theorem mapValidate_length (ty : List Char) :
    ∀ l : List JsonValue, (mapValidate ty l).1.length = l.length := by
  intro l
  induction l with
  | nil => rfl
  | cons tc rest ih =>
    rw [mapValidate]
    cases validateTestCase ty tc with
    | error e => simp
    | ok tc' => simp [ih]

theorem padPrivateF_length :
    ∀ (fuel : Nat) (l : List JsonValue), 4 - l.length ≤ fuel →
      (padPrivateF fuel l).length = max 4 l.length := by
  intro fuel
  induction fuel with
  | zero =>
    intro l h
    rw [padPrivateF]
    omega
  | succ fuel ih =>
    intro l h
    rw [padPrivateF]
    split
    · rw [ih]
      · simp
        omega
      · simp
        omega
    · omega



theorem fixPrivate_length (o : Option JsonValue) : 4 ≤ (fixPrivate o).length := by
  unfold fixPrivate
  split
  · split
    · rw [padPrivateF_length 4 _ (by omega)]
      omega
    · omega
  · rw [padPrivateF_length 4 _ (by omega)]
    omega

theorem fixPrivate_length_of_arr (l : List JsonValue) :
    (fixPrivate (some (.arr l))).length = max 4 l.length := by
  simp only [fixPrivate]
  split
  · rw [padPrivateF_length 4 _ (by omega)]
  · omega

theorem fixEdge_length (o : Option JsonValue) : 1 ≤ (fixEdge o).length := by
  unfold fixEdge
  split
  · split
    · simp
    · omega
  · simp

/-- The length of an array after the map-with-possible-throw step is
unchanged. -/
theorem mapStep_length (c : Bool) (ty : List Char) (a : List JsonValue) :
    ((if c = true then (a, false) else mapValidate ty a).1).length = a.length := by
  split
  · rfl
  · rw [mapValidate_length]

/-- Every record the validator emits has at least 4 private test cases and
at least 1 edge case, carries the caller's repair flag, and is never marked
as fallback. -/
theorem processCandidate_created_counts (fuel : Nat) (v : JsonValue) (p : List Char)
    (w : Bool) (r : ChallengeRecord) (warn : Option (List Char))
    (h : processCandidate fuel v p w = .created r warn) :
    4 ≤ r.privateTestCases.length ∧ 1 ≤ r.edgeCases.length ∧
    r.wasRepaired = w ∧ r.isFallback = false := by
  rw [processCandidate] at h
  dsimp only at h
  split at h
  · cases h
  · injection h with h1 h2
    subst h1
    refine ⟨?_, ?_, rfl, rfl⟩
    · dsimp only
      rw [mapStep_length]
      exact fixPrivate_length _
    · dsimp only
      rw [mapStep_length]
      exact fixEdge_length _

/-- The outcome shape the amended totality claim asserts: either the 400
incomplete-data failure, or a record with at least 4 private test cases and
at least 1 edge case. -/
def respOk (resp : ChallengeResponse) : Prop :=
  (∃ m, resp = .incomplete m) ∨
  (∃ r warn, resp = .created r warn ∧
    4 ≤ r.privateTestCases.length ∧ 1 ≤ r.edgeCases.length)

theorem extractStage_ok (fuel : Nat) (parsed : Option JsonValue) (p : List Char)
    (w : Bool) (next : ChallengeResponse) (hnext : respOk next) :
    respOk (extractStage fuel parsed p w next) := by
  cases parsed with
  | none => exact hnext
  | some v =>
    rw [extractStage]
    cases hps : processAndSaveChallenge fuel v p w with
    | error e => exact hnext
    | ok resp =>
      rw [processAndSaveChallenge] at hps
      split at hps
      · cases hps
      · injection hps with hok
        cases hresp : processCandidate fuel v p w with
        | incomplete m =>
          left
          exact ⟨m, by rw [← hok, hresp]⟩
        | created r warn =>
          right
          have hc := processCandidate_created_counts fuel v p w r warn hresp
          exact ⟨r, warn, by rw [← hok, hresp], hc.1, hc.2.1⟩

/-- Claim C1 (counterexample): on the input `{}` (valid JSON with no fields)
the JSON-shaped path returns the 400 incomplete-data failure to its caller,
naming all ten required fields; and on a valid full candidate whose
`publicTestCases` is the empty array, whose `privateTestCases` has five
elements and whose `edgeCases` has two, the returned record has 0 public, 5
private and 2 edge cases — violating every one of the claimed cardinality
bounds (at least 2 public, exactly 4 private, exactly 1 edge). -/
theorem C1_counterexample :
    (extractChallenge "\x7b\x7d" "p").missingOf = some requiredFields ∧
    ((extractChallenge "\x7b\"title\":\"T\",\"difficultyLevel\":\"Easy\",\"description\":\"D\",\"inputFormat\":\"I\",\"outputFormat\":\"O\",\"constraints\":\"C\",\"publicTestCases\":[],\"privateTestCases\":[\x7b\"input\":\"a\",\"output\":\"b\"\x7d,\x7b\"input\":\"a\",\"output\":\"b\"\x7d,\x7b\"input\":\"a\",\"output\":\"b\"\x7d,\x7b\"input\":\"a\",\"output\":\"b\"\x7d,\x7b\"input\":\"a\",\"output\":\"b\"\x7d],\"edgeCases\":[\x7b\"input\":\"x\",\"output\":\"y\"\x7d,\x7b\"input\":\"x\",\"output\":\"y\"\x7d],\"explanation\":\"E\"\x7d" "p").recordOf.map
      (fun r => (r.publicTestCases.length, r.privateTestCases.length, r.edgeCases.length))) =
      some (0, 5, 2) := by
  constructor
  · rfl
  · rfl

/-- Claim C1 (amended): for every input string (including the empty string
and pure noise) the JSON-shaped path never raises; it returns either the 400
incomplete-data failure — when the candidate parses but lacks a required
field or holds a falsy one — or a record with at least 4 private test cases
and at least 1 edge case.  The original bounds do not hold: the public array
may keep any length including zero, and long private and edge arrays are
kept. -/
theorem C1_extractChallenge_total (s p : String) :
    respOk (extractChallenge s p) := by
  rw [extractChallenge]
  apply extractStage_ok
  apply extractStage_ok
  apply extractStage_ok
  right
  refine ⟨_, _, rfl, ?_, ?_⟩
  · simp [createFallbackChallenge]
  · simp [createFallbackChallenge]

/-- When the candidate's `privateTestCases` is an array of `n` elements, the
validator's record has exactly `max 4 n` of them: padded up to four, but
never truncated. -/
theorem processCandidate_private_exact (fuel : Nat) (v : JsonValue) (p : List Char)
    (w : Bool) (r : ChallengeRecord) (warn : Option (List Char)) (l : List JsonValue)
    (hpriv : jsGetField v "privateTestCases".data = some (.arr l))
    (h : processCandidate fuel v p w = .created r warn) :
    r.privateTestCases.length = max 4 l.length := by
  rw [processCandidate] at h
  dsimp only at h
  split at h
  · cases h
  · injection h with h1 h2
    subst h1
    dsimp only
    rw [mapStep_length, hpriv, fixPrivate_length_of_arr]

/-- Claim C3 (amended): for a candidate whose `privateTestCases` array has
between 0 and 10 elements, the validator output that reaches the 201 path
has exactly `max 4 n` private test cases — exactly 4 when the array had at
most 4 elements, otherwise the over-length array is kept as is. -/
theorem C3_validator_private_count (fuel : Nat) (v : JsonValue) (p : List Char) (w : Bool)
    (r : ChallengeRecord) (warn : Option (List Char)) (l : List JsonValue)
    (hlen : l.length ≤ 10)
    (hpriv : jsGetField v "privateTestCases".data = some (.arr l))
    (h : processAndSaveChallenge fuel v p w = .ok (.created r warn)) :
    r.privateTestCases.length = max 4 l.length := by
  rw [processAndSaveChallenge] at h
  split at h
  · cases h
  · injection h with hok
    exact processCandidate_private_exact fuel v p w r warn l hpriv hok

/-- A generic `{input, output}` test-case element. -/
def sampleTc : JsonValue :=
  .obj [("input".data, .str "a".data), ("output".data, .str "b".data)]

/-- A complete candidate with a parameterised private-test-case array. -/
def c3Candidate (priv : List JsonValue) : JsonValue :=
  .obj [("title".data, .str "T".data), ("difficultyLevel".data, .str "Easy".data),
        ("description".data, .str "D".data), ("inputFormat".data, .str "I".data),
        ("outputFormat".data, .str "O".data), ("constraints".data, .str "C".data),
        ("publicTestCases".data, .arr [sampleTc]),
        ("privateTestCases".data, .arr priv),
        ("edgeCases".data, .arr [sampleTc]),
        ("explanation".data, .str "E".data)]

/-- Claim C3 (counterexample): a candidate with five private test cases comes
out of the validator with five, not four. -/
theorem C3_counterexample :
    ((processAndSaveChallenge 9 (c3Candidate (List.replicate 5 sampleTc)) "p".data
        false).toOption.bind ChallengeResponse.recordOf).map
      (fun r => r.privateTestCases.length) = some 5 := rfl

/-- A placeholder record (only used to totalise witness accessors). -/
def emptyRecord : ChallengeRecord :=
  { title := .null, difficultyLevel := .null, description := .null, inputFormat := .null,
    outputFormat := .null, constraints := .null, publicTestCases := [],
    privateTestCases := [], edgeCases := [], explanation := .null, prompt := [],
    wasRepaired := false, isFallback := false, validationWarning := none }

/-- The record the validator produces on the two-private-case witness
candidate. -/
def c3WitnessRecord : ChallengeRecord :=
  match processAndSaveChallenge 9 (c3Candidate (List.replicate 2 sampleTc)) "p".data false with
  | .ok (.created r _) => r
  | _ => emptyRecord

/-- The warning slot of that same outcome. -/
def c3WitnessWarn : Option (List Char) :=
  match processAndSaveChallenge 9 (c3Candidate (List.replicate 2 sampleTc)) "p".data false with
  | .ok (.created _ warn) => warn
  | _ => none

/-- Witness for the amended claim C3 at a concrete candidate with two private
test cases: the validator output has exactly four. -/
theorem C3_witness :
    (List.replicate 2 sampleTc).length ≤ 10 ∧
    c3WitnessRecord.privateTestCases.length = 4 :=
  ⟨by decide,
   C3_validator_private_count 9 (c3Candidate (List.replicate 2 sampleTc)) "p".data false
     c3WitnessRecord c3WitnessWarn (List.replicate 2 sampleTc) (by decide) rfl rfl⟩

/-- The deliberately truncated input of the truncation-repair test. -/
def c7Input : String :=
  "\x7b\"title\":\"t\",\"publicTestCases\":[\x7b\"input\":\"a\",\"output\":\"b\"\x7d,\x7b\"inp"

/-- Claim C7 (counterexample): on the truncated input the overall pipeline's
record has `isFallback = true`, not `false` — the structural repairer's
output still fails to parse (its missing-field injection concatenates
values without separators and even inside the array), so the pipeline falls
through to fallback synthesis. -/
theorem C7_counterexample :
    (extractChallenge c7Input "p").recordOf.map (fun r => r.isFallback) = some true := rfl

/-- Claim C7 (amended): on the truncated input the cleanup first cuts the
text back to the last `}`, the syntax repairer then closes the array (so the
truncated-array branch of the Structural Repairer never fires — the
truncation loop leaves its input unchanged), the injected default fields
produce unparseable text, and the pipeline ends in fallback synthesis: the
record carries `wasRepaired = true`, `isFallback = true`, exactly one public
test case (the fallback placeholder) and the title `t` recovered by the
fallback field regex. -/
theorem C7_truncated_input_behaviour :
    (extractChallenge c7Input "p").recordOf.map
      (fun r => (r.wasRepaired, r.isFallback, r.publicTestCases.length, r.title.asStr)) =
      some (true, true, 1, some "t".data) ∧
    repairStructLoopF ((repairJsonSyntaxList (cleanupResponse c7Input.data)).length + 1)
      (repairJsonSyntaxList (cleanupResponse c7Input.data)) 0 =
      repairJsonSyntaxList (cleanupResponse c7Input.data) ∧
    jsonParseL (repairJsonStructure (cleanupResponse c7Input.data)) = none := by
  refine ⟨rfl, rfl, rfl⟩

/-- Outcome accessor for the endpoint model. -/
def ApiResult.extractionOf : ApiResult → Option ChallengeResponse
  | .fromExtraction r => some r
  | _ => none

/-- Claim C2 (counterexample): when the generation collaborator call fails,
the controller answers with the 500 "Error generating challenge" — no
extraction outcome, hence no record with `isFallback = true` is returned. -/
theorem C2_counterexample :
    generateChallengeWith (.error "boom".data) "sort an array" =
      .serverErrorGenerating "Error generating challenge".data ∧
    (generateChallengeWith (.error "boom".data) "sort an array").extractionOf = none := by
  exact ⟨rfl, rfl⟩

/-- Claim C2 (amended): a generation failure is answered by the outer catch
with the 500 error, not by fallback synthesis (which only ever runs on a
received text whose parsing failed).  The fallback synthesizer itself is
total: for every text and prompt (empty included) it yields a record with 1
public, 4 private and 1 edge placeholder cases and `isFallback = true`, and
when no title can be regex-extracted from the text its title is built
deterministically from the first five words of the prompt. -/
theorem C2_generation_failure_behaviour :
    (∀ (e : List Char) (p : String), p ≠ "" →
      generateChallengeWith (.error e) p =
        .serverErrorGenerating "Error generating challenge".data) ∧
    (∀ (text p : List Char), extractFieldSearch text "title".data = none →
      (createFallbackChallenge text p).title =
        .str ("Coding Challenge: ".data ++ joinWithSpace ((splitOnSpace p).take 5))) ∧
    (∀ (text p : List Char),
      (createFallbackChallenge text p).publicTestCases.length = 1 ∧
      (createFallbackChallenge text p).privateTestCases.length = 4 ∧
      (createFallbackChallenge text p).edgeCases.length = 1 ∧
      (createFallbackChallenge text p).isFallback = true) := by
  refine ⟨?_, ?_, ?_⟩
  · intro e p hp
    rw [generateChallengeWith, if_neg hp]
  · intro text p h
    rw [createFallbackChallenge]
    dsimp only
    rw [show extractFieldOr text "title" = "Default title".data by
      rw [extractFieldOr, h]
      rfl]
    rw [if_pos rfl]
  · intro text p
    exact ⟨rfl, rfl, rfl, rfl⟩

/-- Witness for the amended claim C2: a concrete failed generation call and a
concrete fallback synthesis from an empty text. -/
theorem C2_witness :
    generateChallengeWith (.error "boom".data) "sort an array" =
      .serverErrorGenerating "Error generating challenge".data ∧
    (createFallbackChallenge [] "reverse a linked list in place quickly".data).title =
      .str "Coding Challenge: reverse a linked list in".data :=
  ⟨C2_generation_failure_behaviour.1 "boom".data "sort an array" (by decide),
   C2_generation_failure_behaviour.2.1 [] "reverse a linked list in place quickly".data rfl⟩

/- ------------------------------------------------------------------ -/
/- The markdown normalizer (MCQChallengeController.js lines 9-84).     -/
/- ------------------------------------------------------------------ -/

/-- The regex class `\w`. -/
def isWordChar (c : Char) : Bool :=
  ('a' ≤ c && c ≤ 'z') || ('A' ≤ c && c ≤ 'Z') || ('0' ≤ c && c ≤ '9') || c == '_'

/-- The class `[\w\s]`. -/
def isWordOrWs (c : Char) : Bool := isWordChar c || isJsWs c

/-- A `"---------|"`-per-column separator row (the callback loops of rules
at lines 25-28 and 55-58). -/
def sepRow (n : Nat) : List Char :=
  '|' :: (List.replicate n "---------|".data).flatten

/-- One attempted match of the cell-spacing rule `/\|\s*([^|]*)\s*\|/g`
(line 14) at the head: the replacement `| $1 |` and the rest after the
consumed closing pipe.  The greedy leading `\s*` takes the maximal
whitespace run; the capture is everything from there to the next pipe
(including any trailing whitespace, which is why the rule grows spacing and
is not idempotent). -/
def cellSpacingAt : List Char → Option (List Char × List Char)
  | '|' :: rest =>
    let w := rest.takeWhile isJsWs
    let afterW := rest.drop w.length
    let m := afterW.takeWhile (fun c => c ≠ '|')
    match afterW.drop m.length with
    | '|' :: tail => some ('|' :: ' ' :: (m ++ [' ', '|']), tail)
    | _ => none
  | _ => none

/-- A global pass of the cell-spacing rule. -/
def cellSpacingPass : Nat → List Char → List Char
  | 0, cs => cs
  | _ + 1, [] => []
  | fuel + 1, c :: rest =>
    match cellSpacingAt (c :: rest) with
    | some (rep, tail) => rep ++ cellSpacingPass fuel tail
    | none => c :: cellSpacingPass fuel rest

/-- One attempted match of the header-separator rule
`/(\|\s*[\w\s]+\s*\|)(\s*\n\s*\|)/g` (lines 17-33) at the head, with its
callback: a single-cell header (the three inner pieces together match one
nonempty `[\w\s]` run), then a whitespace run containing a newline and a
pipe; the separator row is inserted when the second group has no dash —
which, being whitespace plus a pipe, it never has. -/
def headerSepAt : List Char → Option (List Char × List Char)
  | '|' :: rest =>
    let r := rest.takeWhile isWordOrWs
    if r.isEmpty then none
    else
      match rest.drop r.length with
      | '|' :: rest2 =>
        let r2 := rest2.takeWhile isJsWs
        if r2.contains '\n' then
          match rest2.drop r2.length with
          | '|' :: tail =>
            let g1 := '|' :: r ++ ['|']
            let g2 := r2 ++ ['|']
            let columnCount := g1.count '|' - 1
            if g2.contains '-' then some (g1 ++ g2, tail)
            else some (g1 ++ '\n' :: sepRow columnCount ++ g2, tail)
          | _ => none
        else none
      | _ => none
  | _ => none

/-- A global pass of the header-separator rule. -/
def headerSepPass : Nat → List Char → List Char
  | 0, cs => cs
  | _ + 1, [] => []
  | fuel + 1, c :: rest =>
    match headerSepAt (c :: rest) with
    | some (rep, tail) => rep ++ headerSepPass fuel tail
    | none => c :: headerSepPass fuel rest

/-- The SQL keywords of the block-respacing rule's alternation (line 37), in
order; matched case-insensitively and without word boundaries. -/
def sqlStmtKws : List (List Char) :=
  ["CREATE TABLE".data, "SELECT".data, "INSERT".data, "UPDATE".data, "DELETE".data]

/-- Try the statement-keyword alternatives in order at the head; the matched
original characters and the rest. -/
def tryStmtKw (cs : List Char) : Option (List Char × List Char) :=
  sqlStmtKws.findSome? (fun kw =>
    match stripPrefixCI cs kw with
    | some after => some (cs.take kw.length, after)
    | none => none)

/-- Earliest statement keyword in the text: `(before, keyword, after)`. -/
def findStmtKw : Nat → List Char → Option (List Char × List Char × List Char)
  | 0, _ => none
  | _ + 1, [] => none
  | fuel + 1, c :: rest =>
    match tryStmtKw (c :: rest) with
    | some (kw, after) => some ([], kw, after)
    | none =>
      match findStmtKw fuel rest with
      | some (pre, kw, after) => some (c :: pre, kw, after)
      | none => none

/-- Earliest closing fence in the text: `(before, after)`. -/
def findFence : Nat → List Char → Option (List Char × List Char)
  | 0, _ => none
  | _ + 1, [] => none
  | fuel + 1, cs@(c :: rest) =>
    match cs with
    | '`' :: '`' :: '`' :: after => some ([], after)
    | _ =>
      match findFence fuel rest with
      | some (pre, after) => some (c :: pre, after)
      | none => none

/-- One attempted match of the SQL-block respacing rule (lines 36-46) at the
head: ` ```sql `, greedy whitespace, lazily up to the earliest statement
keyword, lazily up to the earliest closing fence; the callback re-applies
the cell-spacing rule inside the whole matched block when it contains a
pipe. -/
def sqlBlockAt (cs : List Char) : Option (List Char × List Char) :=
  match cs with
  | '`' :: '`' :: '`' :: rest =>
    match stripPrefixCI rest "sql".data with
    | some rest2 =>
      let sqlTag := rest.take 3
      let w := rest2.takeWhile isJsWs
      let body := rest2.drop w.length
      match findStmtKw (body.length + 1) body with
      | some (pre, kw, afterKw) =>
        match findFence (afterKw.length + 1) afterKw with
        | some (mid, tail) =>
          let m := "```".data ++ sqlTag ++ w ++ pre ++ kw ++ mid ++ "```".data
          let m' := if m.contains '|' then cellSpacingPass (m.length + 1) m else m
          some (m', tail)
        | none => none
      | none => none
    | none => none
  | _ => none

/-- A global pass of the SQL-block respacing rule. -/
def sqlBlockPass : Nat → List Char → List Char
  | 0, cs => cs
  | _ + 1, [] => []
  | fuel + 1, c :: rest =>
    match sqlBlockAt (c :: rest) with
    | some (rep, tail) => rep ++ sqlBlockPass fuel tail
    | none => c :: sqlBlockPass fuel rest

/-- Whether text begins with `\|[-|]*\|` (the negative lookahead of the rule
at line 50): a pipe, then a dash-or-pipe run containing the closing pipe. -/
def sepRowLookahead : List Char → Bool
  | '|' :: t => (t.takeWhile (fun c => c = '-' || c = '|')).contains '|'
  | _ => false

/-- Indices of newlines in a whitespace run, last first (the backtracking
order of `\s*\n` when a negative lookahead follows). -/
def newlineIdxsDesc (r : List Char) : List Nat :=
  ((List.range r.length).filter (fun j => r.getD j ' ' = '\n')).reverse

/-- One attempted match of the trailing-separator rule
`/(\|\s*[\w\s]+\s*\|\s*\n)(?!\|[-|]*\|)/g` (lines 49-63) at the head, with
its callback: a single-cell table line ending in a newline chosen, by
backtracking, as the last newline of the run at which the following text is
not already a separator row; the callback appends `|---------|` and a
newline. -/
def tableSepAt : List Char → Option (List Char × List Char)
  | '|' :: rest =>
    let r := rest.takeWhile isWordOrWs
    if r.isEmpty then none
    else
      match rest.drop r.length with
      | '|' :: rest2 =>
        let r3 := rest2.takeWhile isJsWs
        let afterR3 := rest2.drop r3.length
        (newlineIdxsDesc r3).findSome? (fun j =>
          let tail := r3.drop (j + 1) ++ afterR3
          if sepRowLookahead tail then none
          else
            let g1 := '|' :: r ++ '|' :: r3.take (j + 1)
            let columns := g1.count '|' - 1
            some (g1 ++ sepRow columns ++ ['\n'], tail))
      | _ => none
  | _ => none

/-- A global pass of the trailing-separator rule. -/
def tableSepPass : Nat → List Char → List Char
  | 0, cs => cs
  | _ + 1, [] => []
  | fuel + 1, c :: rest =>
    match tableSepAt (c :: rest) with
    | some (rep, tail) => rep ++ tableSepPass fuel tail
    | none => c :: tableSepPass fuel rest

/-- One attempted match of the fence-space rule `/```(\s*)\n/g` (line 66):
the whitespace through its last newline is replaced so the fence is followed
directly by the newline. -/
def fenceSpaceAt : List Char → Option (List Char × List Char)
  | '`' :: '`' :: '`' :: rest =>
    let w := rest.takeWhile isJsWs
    match (newlineIdxsDesc w).head? with
    | some j => some ("```\n".data, w.drop (j + 1) ++ rest.drop w.length)
    | none => none
  | _ => none

/-- A global pass of the fence-space rule. -/
def fenceSpacePass : Nat → List Char → List Char
  | 0, cs => cs
  | _ + 1, [] => []
  | fuel + 1, c :: rest =>
    match fenceSpaceAt (c :: rest) with
    | some (rep, tail) => rep ++ fenceSpacePass fuel tail
    | none => c :: fenceSpacePass fuel rest

/-- The lazy body of the fence-trailing rule: the shortest nonempty content
whose closing fence is followed by a non-newline character; returns
`(content, that character, rest)`. -/
def fenceTrailScan : List Char → Option (List Char × Char × List Char)
  | [] => none
  | c :: rest =>
    match rest with
    | '`' :: '`' :: '`' :: d :: t =>
      if d ≠ '\n' then some ([c], d, t)
      else
        match fenceTrailScan rest with
        | some (cont, g3, tail) => some (c :: cont, g3, tail)
        | none => none
    | _ =>
      match fenceTrailScan rest with
      | some (cont, g3, tail) => some (c :: cont, g3, tail)
      | none => none

/-- One attempted match of the fence-trailing rule
`/(```[\w+][\s\S]+?)(```)([^\n])/g` (lines 69-72): text continuing right
after a closing fence gets two newlines inserted before it. -/
def fenceTrailAt : List Char → Option (List Char × List Char)
  | '`' :: '`' :: '`' :: w :: rest =>
    if isWordChar w || w == '+' then
      match fenceTrailScan rest with
      | some (cont, g3, tail) =>
        some ("```".data ++ w :: cont ++ "```".data ++ '\n' :: '\n' :: [g3], tail)
      | none => none
    else none
  | _ => none

/-- A global pass of the fence-trailing rule. -/
def fenceTrailPass : Nat → List Char → List Char
  | 0, cs => cs
  | _ + 1, [] => []
  | fuel + 1, c :: rest =>
    match fenceTrailAt (c :: rest) with
    | some (rep, tail) => rep ++ fenceTrailPass fuel tail
    | none => c :: fenceTrailPass fuel rest

/-- The SQL keyword list of the uppercase rule (line 77), in alternation
order. -/
def sqlUpperKws : List (List Char) :=
  ["select".data, "from".data, "where".data, "join".data, "inner".data, "outer".data,
   "left".data, "right".data, "on".data, "and".data, "or".data, "group by".data,
   "order by".data, "having".data, "limit".data, "insert".data, "update".data,
   "delete".data, "create".data, "alter".data, "drop".data, "table".data, "view".data,
   "index".data, "into".data, "values".data, "set".data]

/-- Try the uppercase-rule keywords in order at the head, requiring the
trailing word boundary; the matched original characters and the rest. -/
def tryUpperKw (cs : List Char) : Option (List Char × List Char) :=
  sqlUpperKws.findSome? (fun kw =>
    match stripPrefixCI cs kw with
    | some after =>
      match after with
      | [] => some (cs.take kw.length, after)
      | d :: _ => if isWordChar d then none else some (cs.take kw.length, after)
    | none => none)

/-- The keyword-uppercasing scan `\b(...)\b` applied globally with the
leading word boundary tracked through the previous character. -/
def upperKwScan : Nat → Option Char → List Char → List Char
  | 0, _, cs => cs
  | _ + 1, _, [] => []
  | fuel + 1, prev, c :: rest =>
    let boundary := match prev with
      | none => true
      | some p => !isWordChar p
    if boundary then
      match tryUpperKw (c :: rest) with
      | some (kw, after) =>
        kw.map Char.toUpper ++ upperKwScan fuel (kw.getLast? ) after
      | none => c :: upperKwScan fuel (some c) rest
    else c :: upperKwScan fuel (some c) rest

/-- One attempted match of the SQL-uppercase rule `/```sql([\s\S]*?)```/gi`
(lines 75-81), with its callback: uppercase the keyword tokens of the lazy
body, trim it, and rebuild the block as ` ```sql\n…\n``` `. -/
def sqlUpperAt (cs : List Char) : Option (List Char × List Char) :=
  match cs with
  | '`' :: '`' :: '`' :: rest =>
    match stripPrefixCI rest "sql".data with
    | some rest2 =>
      match findFence (rest2.length + 1) rest2 with
      | some (p1, tail) =>
        let uppercased := upperKwScan (p1.length + 1) none p1
        some ("```sql\n".data ++ jsTrimList uppercased ++ "\n```".data, tail)
      | none => none
    | none => none
  | _ => none

/-- A global pass of the SQL-uppercase rule. -/
def sqlUpperPass : Nat → List Char → List Char
  | 0, cs => cs
  | _ + 1, [] => []
  | fuel + 1, c :: rest =>
    match sqlUpperAt (c :: rest) with
    | some (rep, tail) => rep ++ sqlUpperPass fuel tail
    | none => c :: sqlUpperPass fuel rest

/-- `preprocessMarkdown` (lines 9-84) on character lists: the seven rules in
source order, each with fuel above its input length. -/
def preprocessMarkdownL (markdown : List Char) : List Char :=
  if markdown.isEmpty then []
  else
    let p1 := cellSpacingPass (markdown.length + 1) markdown
    let p2 := headerSepPass (p1.length + 1) p1
    let p3 := sqlBlockPass (p2.length + 1) p2
    let p4 := tableSepPass (p3.length + 1) p3
    let p5 := fenceSpacePass (p4.length + 1) p4
    let p6 := fenceTrailPass (p5.length + 1) p5
    sqlUpperPass (p6.length + 1) p6

/-- `preprocessMarkdown` on strings. -/
def preprocessMarkdown (markdown : String) : String :=
  ⟨preprocessMarkdownL markdown.data⟩

/- ------------------------------------------------------------------ -/
/- The MCQ delimiter-record parser (MCQChallengeController.js 86-229). -/
/- ------------------------------------------------------------------ -/

/-- Case-insensitive leftmost occurrence of a needle: the rest after it. -/
def findCI : List Char → List Char → Option (List Char)
  | [], needle => if needle.isEmpty then some [] else none
  | cs@(_ :: rest), needle =>
    match stripPrefixCI cs needle with
    | some after => some after
    | none => findCI rest needle

/-- Case-insensitive prefix test. -/
def ciIsPrefix (needle cs : List Char) : Bool := (stripPrefixCI cs needle).isSome

/-- The capture of `/LABEL:\s*(.*)/i`: after the first occurrence of the
label, skip whitespace (newlines included), take the rest of that line. -/
def matchLabelLine (text label : List Char) : Option (List Char) :=
  (findCI text label).map (fun after => (after.dropWhile isJsWs).takeWhile isDotChar)

/-- Everything up to the earliest case-insensitive occurrence of a stop
label (or the whole text) — the lazy section capture with its
`(?=STOP:|$)` lookahead. -/
def sectionUpTo : List Char → List Char → List Char
  | [], _ => []
  | cs@(c :: rest), stop =>
    if ciIsPrefix stop cs then [] else c :: sectionUpTo rest stop

/-- The capture of `/LABEL:\s*([\s\S]*?)(?=STOP:|$)/i`. -/
def matchLabelSection (text label stop : List Char) : Option (List Char) :=
  (findCI text label).map (fun after => sectionUpTo (after.dropWhile isJsWs) stop)

/-- The lookahead `(?=(?:[A-D]:|$))` of the option regex (line 186). -/
def optStop : List Char → Bool
  | a :: ':' :: _ => decide ('A' ≤ a ∧ a ≤ 'D')
  | _ => false

/-- The lazy option body: grow until an option label or the end. -/
def optBody : List Char → (List Char × List Char)
  | [] => ([], [])
  | cs@(c :: rest) =>
    if optStop cs then ([], cs)
    else
      let (b, r) := optBody rest
      (c :: b, r)

/-- The `exec` loop over `/([A-D]):\s*([\s\S]*?)(?=(?:[A-D]:|$))/g` (lines
186-193): each match yields an id letter and its raw text. -/
def parseOptions : Nat → List Char → List (Char × List Char)
  | 0, _ => []
  | _ + 1, [] => []
  | fuel + 1, c :: rest =>
    if 'A' ≤ c ∧ c ≤ 'D' then
      match rest with
      | ':' :: r2 =>
        let r3 := r2.dropWhile isJsWs
        let br := optBody r3
        (c, br.1) :: parseOptions fuel br.2
      | _ => parseOptions fuel rest
    else parseOptions fuel rest

/-- The parsed MCQ as the controller assembles it (line 203-211). -/
structure MCQData where
  title : List Char
  difficultyLevel : List Char
  question : List Char
  options : List (Char × List Char)
  correctOptionId : List Char
  explanation : List Char
  prompt : List Char

/-- The outcomes of the MCQ parsing section: the two 500 refusals with
their fixed messages, or the record (the save belongs to the persistence
collaborator). -/
inductive MCQOutcome where
  | invalidFormat
  | invalidOptionCount
  | record (m : MCQData)

/-- The refusal message of each failing outcome. -/
def MCQOutcome.messageOf : MCQOutcome → Option (List Char)
  | .invalidFormat => some "Invalid response format from AI".data
  | .invalidOptionCount => some "Invalid number of options in AI response".data
  | .record _ => none

/-- Accessor for the record outcome. -/
def MCQOutcome.recordOf : MCQOutcome → Option MCQData
  | .record m => some m
  | _ => none

/-- `extractMCQ`: the parsing part of `generateMCQ` (lines 154-218) on a
received generation text.  The six section regexes must all match or the
fixed "Invalid response format from AI" refusal is returned (no section is
named); the option block must yield exactly four matches or the fixed
"Invalid number of options in AI response" refusal is returned (the count
is not named). -/
def extractMCQ (aiResponse : String) (prompt : List Char) : MCQOutcome :=
  let text := aiResponse.data
  let titleM := matchLabelLine text "TITLE:".data
  let difficultyM := matchLabelLine text "DIFFICULTY:".data
  let questionM := matchLabelSection text "QUESTION:".data "OPTIONS:".data
  let optionsM := matchLabelSection text "OPTIONS:".data "CORRECT:".data
  let correctM := matchLabelLine text "CORRECT:".data
  let explanationM := (findCI text "EXPLANATION:".data).map (fun a => a.dropWhile isJsWs)
  if titleM.isNone || difficultyM.isNone || questionM.isNone || optionsM.isNone ||
      correctM.isNone || explanationM.isNone then
    .invalidFormat
  else
    let optionsText := jsTrimList (optionsM.getD [])
    let optionsArray := (parseOptions (optionsText.length + 1) optionsText).map
      (fun p => (p.1, preprocessMarkdownL (jsTrimList p.2)))
    if optionsArray.length ≠ 4 then .invalidOptionCount
    else
      .record {
        title := jsTrimList (titleM.getD [])
        difficultyLevel := jsTrimList (difficultyM.getD [])
        question := preprocessMarkdownL (jsTrimList (questionM.getD []))
        options := optionsArray
        correctOptionId := jsTrimList (correctM.getD [])
        explanation := preprocessMarkdownL (jsTrimList (explanationM.getD []))
        prompt := prompt }

/- ------------------------------------------------------------------ -/
/- Facts about the markdown normalizer (claim C5).                     -/
/- ------------------------------------------------------------------ -/

theorem cellSpacingAt_ne {c : Char} (rest : List Char) (h : c ≠ '|') :
    cellSpacingAt (c :: rest) = none := by
  unfold cellSpacingAt
  split
  · next r heq =>
    injection heq with h1 h2
    exact absurd h1 h
  · rfl

theorem headerSepAt_ne {c : Char} (rest : List Char) (h : c ≠ '|') :
    headerSepAt (c :: rest) = none := by
  unfold headerSepAt
  split
  · next r heq =>
    injection heq with h1 h2
    exact absurd h1 h
  · rfl

theorem tableSepAt_ne {c : Char} (rest : List Char) (h : c ≠ '|') :
    tableSepAt (c :: rest) = none := by
  unfold tableSepAt
  split
  · next r heq =>
    injection heq with h1 h2
    exact absurd h1 h
  · rfl

theorem sqlBlockAt_ne {c : Char} (rest : List Char) (h : c ≠ '`') :
    sqlBlockAt (c :: rest) = none := by
  unfold sqlBlockAt
  split
  · next r heq =>
    injection heq with h1 h2
    exact absurd h1 h
  · rfl

theorem fenceSpaceAt_ne {c : Char} (rest : List Char) (h : c ≠ '`') :
    fenceSpaceAt (c :: rest) = none := by
  unfold fenceSpaceAt
  split
  · next r heq =>
    injection heq with h1 h2
    exact absurd h1 h
  · rfl

theorem fenceTrailAt_ne {c : Char} (rest : List Char) (h : c ≠ '`') :
    fenceTrailAt (c :: rest) = none := by
  unfold fenceTrailAt
  split
  · next w r heq =>
    injection heq with h1 h2
    exact absurd h1 h
  · rfl

theorem sqlUpperAt_ne {c : Char} (rest : List Char) (h : c ≠ '`') :
    sqlUpperAt (c :: rest) = none := by
  unfold sqlUpperAt
  split
  · next r heq =>
    injection heq with h1 h2
    exact absurd h1 h
  · rfl

theorem cellSpacingPass_id (fuel : Nat) :
    ∀ cs : List Char, (∀ c ∈ cs, c ≠ '|') → cellSpacingPass fuel cs = cs := by
  induction fuel with
  | zero => intro cs _; rfl
  | succ fuel ih =>
    intro cs h
    cases cs with
    | nil => rfl
    | cons c rest =>
      rw [cellSpacingPass, cellSpacingAt_ne rest (h c (List.mem_cons_self c rest)),
        ih rest (fun x hx => h x (List.mem_cons_of_mem c hx))]

theorem headerSepPass_id (fuel : Nat) :
    ∀ cs : List Char, (∀ c ∈ cs, c ≠ '|') → headerSepPass fuel cs = cs := by
  induction fuel with
  | zero => intro cs _; rfl
  | succ fuel ih =>
    intro cs h
    cases cs with
    | nil => rfl
    | cons c rest =>
      rw [headerSepPass, headerSepAt_ne rest (h c (List.mem_cons_self c rest)),
        ih rest (fun x hx => h x (List.mem_cons_of_mem c hx))]

theorem tableSepPass_id (fuel : Nat) :
    ∀ cs : List Char, (∀ c ∈ cs, c ≠ '|') → tableSepPass fuel cs = cs := by
  induction fuel with
  | zero => intro cs _; rfl
  | succ fuel ih =>
    intro cs h
    cases cs with
    | nil => rfl
    | cons c rest =>
      rw [tableSepPass, tableSepAt_ne rest (h c (List.mem_cons_self c rest)),
        ih rest (fun x hx => h x (List.mem_cons_of_mem c hx))]

theorem sqlBlockPass_id (fuel : Nat) :
    ∀ cs : List Char, (∀ c ∈ cs, c ≠ '`') → sqlBlockPass fuel cs = cs := by
  induction fuel with
  | zero => intro cs _; rfl
  | succ fuel ih =>
    intro cs h
    cases cs with
    | nil => rfl
    | cons c rest =>
      rw [sqlBlockPass, sqlBlockAt_ne rest (h c (List.mem_cons_self c rest)),
        ih rest (fun x hx => h x (List.mem_cons_of_mem c hx))]

theorem fenceSpacePass_id (fuel : Nat) :
    ∀ cs : List Char, (∀ c ∈ cs, c ≠ '`') → fenceSpacePass fuel cs = cs := by
  induction fuel with
  | zero => intro cs _; rfl
  | succ fuel ih =>
    intro cs h
    cases cs with
    | nil => rfl
    | cons c rest =>
      rw [fenceSpacePass, fenceSpaceAt_ne rest (h c (List.mem_cons_self c rest)),
        ih rest (fun x hx => h x (List.mem_cons_of_mem c hx))]

theorem fenceTrailPass_id (fuel : Nat) :
    ∀ cs : List Char, (∀ c ∈ cs, c ≠ '`') → fenceTrailPass fuel cs = cs := by
  induction fuel with
  | zero => intro cs _; rfl
  | succ fuel ih =>
    intro cs h
    cases cs with
    | nil => rfl
    | cons c rest =>
      rw [fenceTrailPass, fenceTrailAt_ne rest (h c (List.mem_cons_self c rest)),
        ih rest (fun x hx => h x (List.mem_cons_of_mem c hx))]

theorem sqlUpperPass_id (fuel : Nat) :
    ∀ cs : List Char, (∀ c ∈ cs, c ≠ '`') → sqlUpperPass fuel cs = cs := by
  induction fuel with
  | zero => intro cs _; rfl
  | succ fuel ih =>
    intro cs h
    cases cs with
    | nil => rfl
    | cons c rest =>
      rw [sqlUpperPass, sqlUpperAt_ne rest (h c (List.mem_cons_self c rest)),
        ih rest (fun x hx => h x (List.mem_cons_of_mem c hx))]

/-- On text with no pipe and no backtick the normalizer is the identity:
every rule's match needs one of those two characters. -/
theorem preprocessMarkdownL_id (cs : List Char)
    (h : ∀ c ∈ cs, c ≠ '|' ∧ c ≠ '`') : preprocessMarkdownL cs = cs := by
  have hp : ∀ c ∈ cs, c ≠ '|' := fun c hc => (h c hc).1
  have hb : ∀ c ∈ cs, c ≠ '`' := fun c hc => (h c hc).2
  unfold preprocessMarkdownL
  split
  · next hemp => exact (List.isEmpty_iff.mp hemp).symm
  · dsimp only
    rw [cellSpacingPass_id _ cs hp]
    rw [headerSepPass_id _ cs hp]
    rw [sqlBlockPass_id _ cs hb]
    rw [tableSepPass_id _ cs hp]
    rw [fenceSpacePass_id _ cs hb]
    rw [fenceTrailPass_id _ cs hb]
    rw [sqlUpperPass_id _ cs hb]

/-- Claim C5 (counterexample): the markdown normalizer is not idempotent.
On `|a|` the cell-spacing rule produces `| a |`; on that output its greedy
leading `\s*` eats one space while the capture keeps the trailing space, so
a second run widens the cell again to `| a  |`. -/
theorem C5_counterexample :
    preprocessMarkdown (preprocessMarkdown "|a|") ≠ preprocessMarkdown "|a|" := by
  decide

/-- Claim C5 (amended): the markdown normalizer is idempotent on every input
containing neither a pipe nor a backtick — on such text it is the identity,
because every rule's match requires one of those characters.  On tables and
fenced blocks it is not idempotent (the cell-spacing rule keeps widening
cells, and the fence-trailing rule keeps rewriting around inserted blank
lines). -/
theorem C5_preprocess_idem_of_plain (s : String)
    (h : ∀ c ∈ s.data, c ≠ '|' ∧ c ≠ '`') :
    preprocessMarkdown (preprocessMarkdown s) = preprocessMarkdown s := by
  show (⟨preprocessMarkdownL (preprocessMarkdown s).data⟩ : String) = ⟨preprocessMarkdownL s.data⟩
  have h1 : preprocessMarkdownL s.data = s.data := preprocessMarkdownL_id s.data h
  have h2 : (preprocessMarkdown s).data = preprocessMarkdownL s.data := rfl
  rw [h2, h1, h1]

/-- Witness for the amended claim C5 at a concrete pipe- and backtick-free
input. -/
theorem C5_witness :
    preprocessMarkdown (preprocessMarkdown "SELECT name FROM users") =
      preprocessMarkdown "SELECT name FROM users" :=
  C5_preprocess_idem_of_plain "SELECT name FROM users" (by decide)

/-- A placeholder MCQ record (only used to totalise witness accessors). -/
def emptyMCQData : MCQData :=
  { title := [], difficultyLevel := [], question := [], options := [],
    correctOptionId := [], explanation := [], prompt := [] }

/-- A generation text whose option block repeats the label `A` four times
and whose `CORRECT:` line names `E`. -/
def c8DupText : String :=
  "TITLE: T\nDIFFICULTY: Easy\nQUESTION: Q\nOPTIONS:\nA: 1\nA: 2\nA: 3\nA: 4\nCORRECT: E\nEXPLANATION: X"

/-- A generation text whose option block has five labels. -/
def c8FiveText : String :=
  "TITLE: T\nDIFFICULTY: Easy\nQUESTION: Q\nOPTIONS:\nA: 1\nB: 2\nC: 3\nD: 4\nD: 5\nCORRECT: B\nEXPLANATION: X"

/-- A well-formed generation text with options exactly `A`-`D`. -/
def c8GoodText : String :=
  "TITLE: T\nDIFFICULTY: Easy\nQUESTION: Q\nOPTIONS:\nA: 1\nB: 2\nC: 3\nD: 4\nCORRECT: B\nEXPLANATION: X"

/-- Claim C8 (counterexample): `extractMCQ` succeeds on an option block
whose four labels are all `A` and whose correct-option line says `E`: the
record's id multiset is `A,A,A,A`, not the set `{A,B,C,D}`, and
`correctOptionId` is `E`, not one of the four ids.  And on a five-option
block the refusal carries the fixed message "Invalid number of options in
AI response", which does not name the found count `5`. -/
theorem C8_counterexample :
    ((extractMCQ c8DupText "p".data).recordOf.map
      (fun m => (m.options.map Prod.fst, m.correctOptionId))) =
      some (['A', 'A', 'A', 'A'], "E".data) ∧
    (extractMCQ c8FiveText "p".data).messageOf =
      some "Invalid number of options in AI response".data ∧
    containsSub "Invalid number of options in AI response".data "5".data = false := by
  refine ⟨rfl, rfl, ?_⟩
  decide

/-- A character bounded between the code points of `A` and `D` is one of
the four letters. -/
theorem char_AD_mem (c : Char) (hc : 'A' ≤ c ∧ c ≤ 'D') :
    c ∈ (['A', 'B', 'C', 'D'] : List Char) := by
  have hl : 65 ≤ c.toNat := hc.1
  have hr : c.toNat ≤ 68 := hc.2
  interval_cases hn : c.toNat
  · have hcc : c = 'A' :=
      Char.ext (UInt32.ext (show c.val.toNat = ('A' : Char).val.toNat from hn))
    simp [hcc]
  · have hcc : c = 'B' :=
      Char.ext (UInt32.ext (show c.val.toNat = ('B' : Char).val.toNat from hn))
    simp [hcc]
  · have hcc : c = 'C' :=
      Char.ext (UInt32.ext (show c.val.toNat = ('C' : Char).val.toNat from hn))
    simp [hcc]
  · have hcc : c = 'D' :=
      Char.ext (UInt32.ext (show c.val.toNat = ('D' : Char).val.toNat from hn))
    simp [hcc]

/-- Ids produced by the option regex always lie in `A`-`D`. -/
theorem parseOptions_ids (fuel : Nat) :
    ∀ (cs : List Char) (p : Char × List Char), p ∈ parseOptions fuel cs →
      p.1 ∈ (['A', 'B', 'C', 'D'] : List Char) := by
  induction fuel with
  | zero => intro cs p hp; cases hp
  | succ fuel ih =>
    intro cs p hp
    cases cs with
    | nil => cases hp
    | cons c rest =>
      rw [parseOptions.eq_def] at hp
      dsimp only at hp
      split at hp
      · next hc =>
        split at hp
        · next r2 =>
          rcases List.mem_cons.mp hp with hp | hp
          · rw [hp]
            exact char_AD_mem c hc
          · exact ih _ p hp
        · exact ih _ p hp
      · exact ih _ p hp

/-- Claim C8 (amended): whenever `extractMCQ` succeeds, the record's
options array has length exactly 4 and every option id lies in
`{A, B, C, D}` — but the four ids need not be distinct (the id SET need
not be exactly `{A, B, C, D}`), `correctOptionId` is the raw text of the
`CORRECT:` line and is never checked against the ids, and a block with a
different count is refused with a fixed message that does not name the
found count. -/
theorem C8_mcq_success_invariants (aiResponse : String) (prompt : List Char)
    (m : MCQData) (h : extractMCQ aiResponse prompt = .record m) :
    m.options.length = 4 ∧
      ∀ p ∈ m.options, p.1 ∈ (['A', 'B', 'C', 'D'] : List Char) := by
  unfold extractMCQ at h
  dsimp only at h
  split at h
  · exact absurd h (by simp)
  · split at h
    · exact absurd h (by simp)
    · next hlen =>
      injection h with h'
      have hopt : m.options =
          (parseOptions ((jsTrimList ((matchLabelSection aiResponse.data
              "OPTIONS:".data "CORRECT:".data).getD [])).length + 1)
            (jsTrimList ((matchLabelSection aiResponse.data
              "OPTIONS:".data "CORRECT:".data).getD []))).map
            (fun p => (p.1, preprocessMarkdownL (jsTrimList p.2))) := by
        rw [← h']
      constructor
      · rw [hopt]
        have h4 := not_ne_iff.mp hlen
        simpa using h4
      · intro p hp
        rw [hopt] at hp
        rcases List.mem_map.mp hp with ⟨q, hq, hpq⟩
        have hid := parseOptions_ids _ _ q hq
        rw [← hpq]
        exact hid

/-- Witness for the amended claim C8 at a well-formed generation text. -/
theorem C8_witness :
    (extractMCQ c8GoodText "p".data).recordOf.isSome = true ∧
    ((extractMCQ c8GoodText "p".data).recordOf.getD emptyMCQData).options.length = 4 :=
  ⟨rfl, (C8_mcq_success_invariants c8GoodText "p".data
    ((extractMCQ c8GoodText "p".data).recordOf.getD emptyMCQData) rfl).1⟩

/-- A generation text with every section except `CORRECT:`. -/
def c9Text : String :=
  "TITLE: T\nDIFFICULTY: Easy\nQUESTION: Q\nOPTIONS:\nA: 1\nB: 2\nC: 3\nD: 4\nEXPLANATION: X"

/-- Claim C9 (counterexample): on label-shaped text missing only the
`CORRECT:` section, `extractMCQ` refuses with the fixed message
"Invalid response format from AI", which names no label at all — in
particular it does not contain the word `CORRECT`. -/
theorem C9_counterexample :
    extractMCQ c9Text "p".data = .invalidFormat ∧
    (extractMCQ c9Text "p".data).messageOf =
      some "Invalid response format from AI".data ∧
    containsSub "Invalid response format from AI".data "CORRECT".data = false := by
  refine ⟨rfl, rfl, by decide⟩

/-- Claim C9 (amended): whenever the generation text has no
case-insensitive occurrence of `CORRECT:`, `extractMCQ` returns the
invalid-format refusal, whose message is the fixed string "Invalid
response format from AI" — there is no MissingSections refusal and no
absent label is ever named. -/
theorem C9_missing_correct_refusal (aiResponse : String) (prompt : List Char)
    (h : findCI aiResponse.data "CORRECT:".data = none) :
    extractMCQ aiResponse prompt = .invalidFormat ∧
    (extractMCQ aiResponse prompt).messageOf =
      some "Invalid response format from AI".data := by
  have hc : matchLabelLine aiResponse.data "CORRECT:".data = none := by
    rw [matchLabelLine, h]; rfl
  have hmain : extractMCQ aiResponse prompt = .invalidFormat := by
    unfold extractMCQ
    dsimp only
    rw [hc]
    simp
  exact ⟨hmain, by rw [hmain]; rfl⟩

/-- Witness for the amended claim C9 at a concrete text with no
`CORRECT:` occurrence. -/
theorem C9_witness :
    findCI "TITLE: T".data "CORRECT:".data = none ∧
    extractMCQ "TITLE: T" "p".data = MCQOutcome.invalidFormat :=
  ⟨by decide, (C9_missing_correct_refusal "TITLE: T" "p".data (by decide)).1⟩
